import Mathlib

/-!
Verification of the `diener` manifest-rewriting tool against its source.

The development shallowly embeds the relevant parts of `src/update.rs` and
`src/workspacify.rs`:

* TOML inline tables (`toml_edit::InlineTable`) are modelled as ordered lists
  of decorated key/value entries, mirroring the order- and
  formatting-preserving behaviour of the `toml_edit` document model that the
  tool relies on.
* Documents are modelled as ordered lists of top-level items, of which only
  tables whose key contains `dependencies` hold inline-table rows that the
  tool touches.
* The blocking network / filesystem collaborators (crates.io queries,
  `Cargo.lock` fetches, file reads) are modelled as a record of pure oracle
  functions; every invocation of an oracle increments a fetch counter in the
  run state so that caching behaviour is observable.
-/

namespace Diener

/-- Log severity, mirroring the `log` crate levels used by the tool. -/
inductive LogLevel
  | error
  | info
  | debug
  | trace
deriving DecidableEq

/-- One emitted log line: severity plus message. -/
structure LogEntry where
  level : LogLevel
  msg : String
deriving DecidableEq

/-- A TOML value as far as the rewriter observes it: either a string value
(the only kind the rewriter reads or writes) or any other value kept as raw
text. -/
inductive TomlVal
  | str (s : String)
  | other (raw : String)
deriving DecidableEq

/-- One entry of a `toml_edit` inline table: decorated key, decorated value.
`keyPre`/`keySuf` are the whitespace decoration around the key,
`valPre`/`valSuf` around the value. -/
structure Entry where
  keyPre : String
  key : String
  keySuf : String
  valPre : String
  val : TomlVal
  valSuf : String
deriving DecidableEq

/-- A `toml_edit::InlineTable`: entries in document order. -/
abbrev InlineTable := List Entry

/-- Default decoration used by `toml_edit` for a key inserted by
`get_or_insert`. -/
def defKeyPre : String := " "

/-- Default trailing decoration for an inserted key. -/
def defKeySuf : String := " "

/-- `InlineTable::get`: the value of the first entry with the given key. -/
def tblGet (t : InlineTable) (k : String) : Option TomlVal :=
  match t with
  | [] => none
  | e :: es => if e.key = k then some e.val else tblGet es k

/-- `InlineTable::remove`: drop the entry with the given key. -/
def tblRemove : InlineTable → String → InlineTable
  | [], _ => []
  | e :: es, k => if e.key = k then tblRemove es k else e :: tblRemove es k

/-- `*table.get_or_insert(k, default) = value.decorated(pre, suf)`: replace the
value (and its decoration) of the first entry with key `k`, keeping the key
and its decoration in place; if no such entry exists, append a fresh entry
with the default key decoration. -/
def setValue (t : InlineTable) (k : String) (v : TomlVal) (pre suf : String) :
    InlineTable :=
  match t with
  | [] => [⟨defKeyPre, k, defKeySuf, pre, v, suf⟩]
  | e :: es =>
    if e.key = k then
      { e with valPre := pre, val := v, valSuf := suf } :: es
    else
      e :: setValue es k v pre suf

/-- Rendering of a value back to bytes. -/
def renderVal : TomlVal → String
  | .str s => "\x22" ++ s ++ "\x22"
  | .other raw => raw

/-- Rendering of one inline-table entry back to bytes. -/
def renderEntry (e : Entry) : String :=
  e.keyPre ++ e.key ++ e.keySuf ++ "=" ++ e.valPre ++ renderVal e.val ++ e.valSuf

/-- Rendering of an inline table back to bytes, as `toml_edit` serialises it. -/
def renderTable (t : InlineTable) : String :=
  "\x7b" ++ String.intercalate "," (t.map renderEntry) ++ "\x7d"

/-- The different sources `Version` can be generated from
(`enum VersionSource` in `update.rs`; the first variant is spelled
`CratesIO` there). -/
inductive VersionSource
  | CratesIo
  | Url (u : String)
  | File (p : String)
deriving DecidableEq

/-- The version the dependencies should be switched to
(`enum Key` in `update.rs`). -/
inductive Key
  | Tag (s : String)
  | Branch (s : String)
  | Rev (s : String)
  | Version (src : VersionSource)
deriving DecidableEq

/-- Which dependencies should be rewritten (`enum Rewrite` in `update.rs`). -/
inductive Rewrite
  | All
  | Substrate (git : Option String)
  | Polkadot (git : Option String)
  | Cumulus (git : Option String)
  | Beefy (git : Option String)
deriving DecidableEq

/-- One `[[package]]` table of a parsed `Cargo.lock` file: its string-valued
fields. -/
abbrev LockPackage := List (String × String)

/-- The `package` array-of-tables of a parsed `Cargo.lock` file. -/
abbrev LockBody := List LockPackage

/-- The external collaborators of the rewriter, as pure oracles.
`registryMaxVersion` models the crates.io API query plus JSON extraction of
`crate.max_version`; `fetchUrl` and `readFile` model retrieving a raw
`Cargo.lock` body and parsing it with the external TOML parser (`none` means
the body was retrieved but failed to parse as a document). -/
structure Network where
  registryMaxVersion : String → Except String String
  fetchUrl : String → Except String (Option LockBody)
  readFile : String → Except String (Option LockBody)

/-- The run-scoped mutable state of an `Update::run` invocation:
`packagesVersion` and `cargoLock` are the two caches declared at the top of
`Update::run`; `fetchCount` counts how many expensive resolutions (network
queries or file reads) have been performed. -/
structure UpdateState where
  packagesVersion : List (String × String)
  cargoLock : Option (Option LockBody)
  fetchCount : Nat
deriving DecidableEq

/-- The empty state created at the start of a run. -/
def UpdateState.init : UpdateState := ⟨[], none, 0⟩

/-- `get_version_from_cargo_lock_file` (`update.rs`): scan the `package`
array of tables for the first entry whose `name` matches and that records a
`version`. The TOML parse step of the original (which takes the raw body) is
represented by the `Option LockBody` argument. -/
def get_version_from_cargo_lock_file (body : Option LockBody)
    (package_name : String) : Option String :=
  match body with
  | none => none
  | some tables => go tables
where
  go : LockBody → Option String
    | [] => none
    | p :: ps =>
      match p.lookup "name" with
      | some nm =>
        if nm = package_name then
          match p.lookup "version" with
          | some v => some v
          | none => go ps
        else go ps
      | none => go ps

/-- `get_cargo_lock` (`update.rs`): if a lock body is already cached use it,
otherwise run the fetch action `f`, cache a successful result, and return
it. -/
def get_cargo_lock (f : UpdateState → Except String (Option LockBody) × UpdateState)
    (st : UpdateState) : Except String (Option LockBody) × UpdateState :=
  match st.cargoLock with
  | some l => (.ok l, st)
  | none =>
    match f st with
    | (.ok body, st') => (.ok body, { st' with cargoLock := some body })
    | (.error e, st') => (.error e, st')

/-- `get_version_by_source` (`update.rs`): resolve a package's version from
the requested source, performing (and counting) the expensive fetch. -/
def get_version_by_source (net : Network) (package : String)
    (source : VersionSource) (st : UpdateState) :
    Except String String × UpdateState :=
  match source with
  | .CratesIo =>
    (net.registryMaxVersion package, { st with fetchCount := st.fetchCount + 1 })
  | .Url u =>
    match get_cargo_lock
        (fun s => (net.fetchUrl u, { s with fetchCount := s.fetchCount + 1 })) st with
    | (.ok body, st') =>
      match get_version_from_cargo_lock_file body package with
      | some v => (.ok v, st')
      | none => (.error ("package " ++ package ++ " not found in Cargo.lock"), st')
    | (.error e, st') => (.error e, st')
  | .File p =>
    match get_cargo_lock
        (fun s => (net.readFile p, { s with fetchCount := s.fetchCount + 1 })) st with
    | (.ok body, st') =>
      match get_version_from_cargo_lock_file body package with
      | some v => (.ok v, st')
      | none => (.error ("package " ++ package ++ " not found in Cargo.lock"), st')
    | (.error e, st') => (.error e, st')

/-- `get_version` (`update.rs`): if a version is cached under the declared
dependency name `name`, use it; otherwise resolve it by source for `package`
and cache it under `name`. -/
def get_version (net : Network) (name package : String) (source : VersionSource)
    (st : UpdateState) : Except String String × UpdateState :=
  match st.packagesVersion.lookup name with
  | some v => (.ok v, st)
  | none =>
    match get_version_by_source net package source st with
    | (.ok v, st') =>
      (.ok v, { st' with packagesVersion := (name, v) :: st'.packagesVersion })
    | (.error e, st') => (.error e, st')

/-- `expect_git_ref` (`update.rs`): is the key a git reference? -/
def expect_git_ref (key : Key) : Bool :=
  match key with
  | .Tag _ | .Branch _ | .Rev _ => true
  | .Version _ => false

/-- `remove_keys` (`update.rs`): remove the `tag`, `branch` and `rev` keys
from a dependency. -/
def remove_keys (dep : InlineTable) : InlineTable :=
  tblRemove (tblRemove (tblRemove dep "tag") "branch") "rev"

/-- Split a character list at `/` boundaries (`acc` holds the reversed
current segment). -/
def splitSlash : List Char → List Char → List (List Char)
  | [], acc => [acc.reverse]
  | c :: cs, acc =>
    if c = '/' then acc.reverse :: splitSlash cs []
    else splitSlash cs (c :: acc)

/-- Strip a trailing `.git` from a segment. -/
def stripDotGit (l : List Char) : List Char :=
  match l.reverse with
  | 't' :: 'i' :: 'g' :: '.' :: rest => rest.reverse
  | _ => l

/-- Models the external `git_url_parse::GitUrl` collaborator: `GitUrl::parse`
followed by `.name`, the base name of the repository — the last non-empty
`/`-separated segment of the URL with a trailing `.git` stripped; `none` when
parsing fails to produce a name. -/
def gitUrlName (url : String) : Option String :=
  match ((splitSlash url.data []).filter (fun s => !s.isEmpty)).getLast? with
  | none => none
  | some last =>
    let base := stripDotGit last
    if base.isEmpty then none else some (String.mk base)

/-- The `match rewrite` arms of `handle_dependency`: given the parsed base
name of the dependency's git URL, return `some new_git` when the scope
matches (where `new_git` is the optional replacement URL), `none` when the
entry is out of scope. -/
def matchFamily (rewrite : Rewrite) (gname : String) : Option (Option String) :=
  match rewrite with
  | .All => some none
  | .Substrate g => if gname = "substrate" then some g else none
  | .Polkadot g => if gname = "polkadot" then some g else none
  | .Cumulus g => if gname = "cumulus" then some g else none
  | .Beefy g => if gname = "grandpa-bridge-gadget" then some g else none

/-- The effective package name of a dependency entry: the string-valued
`package` field if present, else the declared key. -/
def effectivePackage (name : String) (dep : InlineTable) : String :=
  match tblGet dep "package" with
  | some (.str s) => s
  | _ => name

/-- Decidable equality for `Except`, needed to evaluate run outcomes. -/
def exceptDecEq {ε α : Type} [DecidableEq ε] [DecidableEq α] :
    (a b : Except ε α) → Decidable (a = b)
  | .ok a, .ok b =>
    if h : a = b then .isTrue (by rw [h])
    else .isFalse (fun hc => h (by cases hc; rfl))
  | .ok _, .error _ => .isFalse (fun hc => Except.noConfusion hc)
  | .error _, .ok _ => .isFalse (fun hc => Except.noConfusion hc)
  | .error e, .error f =>
    if h : e = f then .isTrue (by rw [h])
    else .isFalse (fun hc => h (by cases hc; rfl))

instance {ε α : Type} [DecidableEq ε] [DecidableEq α] : DecidableEq (Except ε α) :=
  exceptDecEq

/-- Result of handling one dependency entry: the rewritten table (or the
propagated error), the updated run state, and the emitted log lines. -/
structure DepOut where
  result : Except String InlineTable
  state : UpdateState
  logs : List LogEntry
deriving DecidableEq

/-- `handle_dependency` (`update.rs`): rewrite one dependency entry in the
requested way. Mirrors the source: excluded packages are skipped with a
debug-level log; for git-ref keys the entry must have a parseable git URL
whose repository name matches the scope; for a version key the version is
resolved (through the caches) and the `version` field replaces all
source-related fields. -/
def handle_dependency (net : Network) (name : String) (dep : InlineTable)
    (rewrite : Rewrite) (key : Key) (excluded : List String)
    (st : UpdateState) : DepOut :=
  let package := effectivePackage name dep
  if package ∈ excluded then
    ⟨.ok dep, st,
      [⟨.debug, "Skipping update for the excluded package " ++ package⟩]⟩
  else if expect_git_ref key then
    match tblGet dep "git" with
    | some (.str url) =>
      match gitUrlName url with
      | some gname =>
        match matchFamily rewrite gname with
        | some newGit =>
          let dep1 := match newGit with
            | some g => setValue dep "git" (.str g) " " ""
            | none => dep
          let dep2 := match key with
            | .Tag t => setValue (remove_keys dep1) "tag" (.str t) " " " "
            | .Branch b => setValue (remove_keys dep1) "branch" (.str b) " " " "
            | .Rev r => setValue (remove_keys dep1) "rev" (.str r) " " " "
            | .Version _ => dep1
          ⟨.ok dep2, st, [⟨.debug, "Updated: " ++ name⟩]⟩
        | none => ⟨.ok dep, st, []⟩
      | none => ⟨.ok dep, st, []⟩
    | _ => ⟨.ok dep, st, []⟩
  else
    match key with
    | .Version src =>
      match get_version net name package src st with
      | (.ok version, st') =>
        let dep1 := setValue dep "version" (.str version) " " " "
        let dep2 := tblRemove (tblRemove (remove_keys dep1) "path") "git"
        ⟨.ok dep2, st', [⟨.debug, "Updated: " ++ name⟩]⟩
      | (.error e, st') => ⟨.error e, st', []⟩
    | _ => ⟨.ok dep, st, []⟩

/-- A single rendered member of a workspace `members` array: its whitespace
decoration and its string value. -/
structure MemberItem where
  pre : String
  v : String
deriving DecidableEq

/-- A `toml_edit::Array` as produced for `workspace.members`: the items plus
trailing decoration and trailing-comma flag. -/
structure MArray where
  items : List MemberItem
  trailing : String
  trailingComma : Bool
deriving DecidableEq

/-- One row of a top-level TOML table, as far as the tool distinguishes
shapes: an inline table (the only shape it mutates), a plain string value
(read by workspacify's `package_name`), an array (written for
`workspace.members`), or anything else kept as raw text. -/
inductive RowItem
  | inline (t : InlineTable)
  | strVal (s : String)
  | arr (a : MArray)
  | otherRow (raw : String)
deriving DecidableEq

/-- One top-level item of a TOML document: a table of rows or any other item
kept as raw text. -/
inductive TopItem
  | table (rows : List (String × RowItem))
  | otherTop (raw : String)
deriving DecidableEq

/-- A parsed `toml_edit::Document`: top-level keyed items in document
order. -/
abbrev Doc := List (String × TopItem)

/-- Does the second character list start with the first? -/
def charsBegin : List Char → List Char → Bool
  | [], _ => true
  | _ :: _, [] => false
  | a :: as, b :: bs => a == b && charsBegin as bs

/-- Does the first character list occur inside the second? -/
def charsInside : List Char → List Char → Bool
  | sub, [] => sub.isEmpty
  | sub, c :: cs => charsBegin sub (c :: cs) || charsInside sub cs

/-- `str::contains` for substrings, as used in `k.contains("dependencies")`. -/
def strContains (s sub : String) : Bool :=
  charsInside sub.data s.data

/-- Result of processing the rows of one dependency table. -/
structure RowsOut where
  rows : List (String × RowItem)
  state : UpdateState
  logs : List LogEntry
deriving DecidableEq

/-- The inner `for_each` of `handle_toml_file`: handle every inline-table row
of a dependency table, logging (at error level) and skipping a row whose
handling fails, leaving that row unchanged. -/
def handleRows (net : Network) (rewrite : Rewrite) (key : Key)
    (excluded : List String) :
    List (String × RowItem) → UpdateState → RowsOut
  | [], st => ⟨[], st, []⟩
  | (dn, row) :: rest, st =>
    match row with
    | .inline t =>
      match handle_dependency net dn t rewrite key excluded st with
      | ⟨.ok t1, st', l⟩ =>
        let r := handleRows net rewrite key excluded rest st'
        ⟨(dn, .inline t1) :: r.rows, r.state, l ++ r.logs⟩
      | ⟨.error e, st', l⟩ =>
        let r := handleRows net rewrite key excluded rest st'
        ⟨(dn, .inline t) :: r.rows, r.state,
          l ++ [⟨.error, "Error handling dependency: " ++ e⟩] ++ r.logs⟩
    | other =>
      let r := handleRows net rewrite key excluded rest st
      ⟨(dn, other) :: r.rows, r.state, r.logs⟩

/-- Result of processing the top-level items of one document. -/
structure ItemsOut where
  items : Doc
  state : UpdateState
  logs : List LogEntry
deriving DecidableEq

/-- The outer iteration of `handle_toml_file`: only top-level tables whose
key contains `dependencies` are scanned; everything else is kept as is. -/
def handleItems (net : Network) (rewrite : Rewrite) (key : Key)
    (excluded : List String) : Doc → UpdateState → ItemsOut
  | [], st => ⟨[], st, []⟩
  | (k, item) :: rest, st =>
    match item with
    | .table rows =>
      if strContains k "dependencies" then
        let r := handleRows net rewrite key excluded rows st
        let r2 := handleItems net rewrite key excluded rest r.state
        ⟨(k, .table r.rows) :: r2.items, r2.state, r.logs ++ r2.logs⟩
      else
        let r2 := handleItems net rewrite key excluded rest st
        ⟨(k, .table rows) :: r2.items, r2.state, r2.logs⟩
    | other =>
      let r2 := handleItems net rewrite key excluded rest st
      ⟨(k, other) :: r2.items, r2.state, r2.logs⟩

/-- Result of handling one manifest file: the document as written back (or
the propagated read/parse error), plus state and logs. -/
structure FileOut where
  result : Except String Doc
  state : UpdateState
  logs : List LogEntry
deriving DecidableEq

/-- `handle_toml_file` (`update.rs`): read and parse the file (the combined
outcome is the `file` argument), rewrite the dependency tables, write the
document back. A read or parse failure is returned to the caller via `?`. -/
def handle_toml_file (net : Network) (rewrite : Rewrite) (key : Key)
    (excluded : List String) (file : Except String Doc) (st : UpdateState) :
    FileOut :=
  match file with
  | .error e => ⟨.error e, st, [⟨.info, "Processing"⟩]⟩
  | .ok doc =>
    let r := handleItems net rewrite key excluded doc st
    ⟨.ok r.items, r.state, ⟨.info, "Processing"⟩ :: r.logs⟩

/-- Result of a whole `Update::run`: the run outcome, the documents written
back in walk order, the final state and the logs. -/
structure RunOut where
  result : Except String Unit
  written : List Doc
  state : UpdateState
  logs : List LogEntry
deriving DecidableEq

/-- The `try_for_each` walk of `Update::run`: handle each discovered manifest
in order; the first per-file error stops the iteration and becomes the run's
result, leaving the remaining files unprocessed. Each file is given as the
combined outcome of reading and parsing it. -/
def update_run (net : Network) (rewrite : Rewrite) (key : Key)
    (excluded : List String) : List (Except String Doc) → UpdateState → RunOut
  | [], st => ⟨.ok (), [], st, []⟩
  | f :: fs, st =>
    match handle_toml_file net rewrite key excluded f st with
    | ⟨.ok doc, st', l⟩ =>
      let r := update_run net rewrite key excluded fs st'
      ⟨r.result, doc :: r.written, r.state, l ++ r.logs⟩
    | ⟨.error e, st', l⟩ => ⟨.error e, [], st', l⟩

/-- A filesystem path, as an ordered list of components. -/
abbrev Path := List String

/-- `Path::display`: components joined by `/`. -/
def pdisplay (p : Path) : String := String.intercalate "/" p

/-- The parent directory of a file path (`Path::parent`). -/
def parentDir (p : Path) : Path := p.dropLast

/-- Rust `Path` ordering: lexicographic comparison of the component
sequences (components compared as strings). -/
def pLE : Path → Path → Bool
  | [], _ => true
  | _ :: _, [] => false
  | a :: as, b :: bs =>
    if a < b then true else if b < a then false else pLE as bs

/-- The filesystem content visible to a workspacify run: every `Cargo.toml`
file in the tree (in walk order), each with its parsed document. -/
abbrev Store := List (Path × Doc)

/-- Read a manifest from the store (an absent root manifest reads as the
empty document, mirroring `read_toml(_, create = true)`). -/
def storeRead (s : Store) (p : Path) : Doc := (s.lookup p).getD []

/-- Write a manifest back to the store, replacing an existing file in place
or creating a new one. -/
def storeWrite : Store → Path → Doc → Store
  | [], p, d => [(p, d)]
  | (q, e) :: rest, p, d =>
    if q = p then (p, d) :: rest else (q, e) :: storeWrite rest p d

/-- `package_name` (`workspacify.rs`): the string value at
`package.name` of a manifest, if any. -/
def docPackageName (d : Doc) : Option String :=
  match d.lookup "package" with
  | some (.table rows) =>
    match rows.lookup "name" with
    | some (.strVal s) => some s
    | _ => none
  | _ => none

/-- Insert-or-replace in an association list, keeping the position of an
existing key (the behaviour of `HashMap::insert` as observed through
lookups). -/
def alInsert {α : Type} (k : String) (v : α) :
    List (String × α) → List (String × α)
  | [] => [(k, v)]
  | (k', v') :: rest =>
    if k' = k then (k, v) :: rest else (k', v') :: alInsert k v rest

/-- The package index built by the first phase of `Workspacify::run`:
the `packages` map plus the `duplicates` report. -/
structure PkgIndex where
  pkgs : List (String × Path)
  dupes : List (String × List String)
deriving DecidableEq

/-- The manifest-scanning loop of `Workspacify::run`: record each package
name's manifest path; on a name already seen, record every involved path
(in encounter order) in the duplicates report. -/
def buildPackagesGo (acc : PkgIndex) : List (Path × Doc) → PkgIndex
  | [] => acc
  | (p, d) :: rest =>
    match docPackageName d with
    | none => buildPackagesGo acc rest
    | some name =>
      match acc.pkgs.lookup name with
      | none => buildPackagesGo ⟨alInsert name p acc.pkgs, acc.dupes⟩ rest
      | some existing =>
        let entry := match acc.dupes.lookup name with
          | none => [pdisplay existing, pdisplay p]
          | some v => v ++ [pdisplay p]
        buildPackagesGo ⟨alInsert name p acc.pkgs, alInsert name entry acc.dupes⟩ rest

/-- The package index of a tree. -/
def buildPackages (ms : List (Path × Doc)) : PkgIndex :=
  buildPackagesGo ⟨[], []⟩ ms

/-- The member item generated for one package manifest path: the path of the
package directory relative to the workspace root, each on its own line
(prefix `\n\t`). -/
def memberOf (workspace : Path) (p : Path) : MemberItem :=
  ⟨"\n\t", pdisplay ((parentDir p).drop workspace.length)⟩

/-- The `members` array built by `update_workspace_members`: the package
manifest paths sorted (`sort_unstable` under the `Path` ordering), each
turned into a one-per-line member, with trailing newline and trailing
comma. -/
def membersArray (workspace : Path) (packages : List (String × Path)) :
    MArray :=
  ⟨((packages.map Prod.snd).mergeSort pLE).map (memberOf workspace), "\n", true⟩

/-- `Table::insert` on the rows of the `workspace` table: replace the value
of an existing `members` row in place, or append a new row. -/
def rowsSetMembers (rows : List (String × RowItem)) (a : MArray) :
    List (String × RowItem) :=
  alInsert "members" (.arr a) rows

/-- Replace the value of the first top-level item with the given key. -/
def docReplaceTop : Doc → String → TopItem → Doc
  | [], k, item => [(k, item)]
  | (k', it') :: rest, k, item =>
    if k' = k then (k, item) :: rest else (k', it') :: docReplaceTop rest k item

/-- `update_workspace_members` (`workspacify.rs`): rewrite (or create) the
root manifest's `workspace.members` array. `toml.entry("workspace")`
inserts an empty table at the end when absent; a non-table `workspace` item
is an error. -/
def update_workspace_members (workspace : Path) (rootDoc : Doc)
    (packages : List (String × Path)) : Except String Doc :=
  let arr := membersArray workspace packages
  match rootDoc.lookup "workspace" with
  | none => .ok (rootDoc ++ [("workspace", .table [("members", .arr arr)])])
  | some (.table rows) =>
    .ok (docReplaceTop rootDoc "workspace" (.table (rowsSetMembers rows arr)))
  | some _ => .error "workspace is not a table"

/-- `dep_key_order` (`workspacify.rs`): the canonical ordering weight of a
dependency entry key (`u32::MAX` for unknown keys). -/
def dep_key_order (k : String) : Nat :=
  if k = "package" then 0
  else if k = "git" then 10
  else if k = "path" then 10
  else if k = "version" then 30
  else if k = "branch" then 30
  else if k = "tag" then 30
  else if k = "default-features" then 40
  else if k = "features" then 50
  else if k = "optional" then 60
  else 4294967295

/-- Models the external `pathdiff::diff_paths` collaborator for the relative
paths handled here: strip the common leading components, then climb out of
the remaining base components and descend into the target. -/
def diff_paths : Path → Path → Path
  | as, [] => as
  | [], _ :: bs => ".." :: diff_paths [] bs
  | a :: as, b :: bs =>
    if a = b then diff_paths as bs
    else List.replicate (b :: bs).length ".." ++ a :: as

/-- `InlineTable::insert` as used by workspacify's `handle_dep`: replace the
value of an existing key in place or append, with the default decoration of
a fresh `Value`. -/
def tblInsert (t : InlineTable) (k : String) (v : TomlVal) : InlineTable :=
  setValue t k v " " ""

/-- `sort_values_by(dep_key_order)`: stable sort of the entries by their
key's canonical weight. -/
def sortEntries (t : InlineTable) : InlineTable :=
  t.mergeSort (fun a b => decide (dep_key_order a.key ≤ dep_key_order b.key))

/-- `handle_dep` (`workspacify.rs`): if the entry's effective name is a
package of this workspace, point the entry at that package's directory via a
relative `path`, dropping `git`/`branch`/`version` and the `workspace`
inheritance marker, and canonically reorder the fields. -/
def wsHandleDep (manifestPath : Path) (packages : List (String × Path))
    (dn : String) (t : InlineTable) : InlineTable :=
  let name := match tblGet t "package" with
    | some (.str s) => s
    | _ => dn
  match packages.lookup name with
  | none => t
  | some path =>
    let dependee := parentDir path
    let dependency := parentDir manifestPath
    let relpath := diff_paths dependee dependency
    let t1 := tblRemove (tblRemove (tblRemove (tblRemove t "git") "branch")
      "version") "workspace"
    sortEntries (tblInsert t1 "path" (.str (pdisplay relpath)))

/-- `rewrite_manifest` (`workspacify.rs`): apply `handle_dep` to every
inline-table row of every top-level table whose key contains
`dependencies`. -/
def rewrite_manifest (manifestPath : Path) (doc : Doc)
    (packages : List (String × Path)) : Doc :=
  doc.map (fun ki =>
    match ki with
    | (k, .table rows) =>
      if strContains k "dependencies" then
        (k, .table (rows.map (fun r =>
          match r with
          | (dn, .inline t) =>
            (dn, .inline (wsHandleDep manifestPath packages dn t))
          | other => other)))
      else (k, .table rows)
    | other => other)

/-- A fatal workspacify error: the duplicate-crates report, or another
run-level failure. -/
inductive WsError
  | duplicates (report : List (String × List String))
  | otherErr (msg : String)
deriving DecidableEq

/-- `Workspacify::run`: build the package index over the tree; on any
duplicate package name bail out with the full report before mutating
anything; otherwise write the updated root manifest and then rewrite every
package manifest in place. The successful result is the final state of the
tree. -/
def workspacify_run (workspace : Path) (store : Store) : Except WsError Store :=
  match buildPackages store with
  | ⟨_, d :: ds⟩ => .error (.duplicates (d :: ds))
  | ⟨pkgs, []⟩ =>
    let rootPath := workspace ++ ["Cargo.toml"]
    match update_workspace_members workspace (storeRead store rootPath) pkgs with
    | .error e => .error (.otherErr e)
    | .ok rootDoc =>
      let store1 := storeWrite store rootPath rootDoc
      .ok (pkgs.foldl (fun s np =>
        storeWrite s np.2 (rewrite_manifest np.2 (storeRead s np.2) pkgs)) store1)

/-! ## Basic lemmas about the inline-table operations -/

/-- The first entry with a given key. -/
def tblFind (t : InlineTable) (k : String) : Option Entry :=
  match t with
  | [] => none
  | e :: es => if e.key = k then some e else tblFind es k

/-- The number of entries with a given key. -/
def countKey : InlineTable → String → Nat
  | [], _ => 0
  | e :: es, k => (if e.key = k then 1 else 0) + countKey es k

theorem tblGet_eq_find_val (t : InlineTable) (k : String) :
    tblGet t k = (tblFind t k).map Entry.val := by
  induction t with
  | nil => rfl
  | cons e es ih =>
    by_cases h : e.key = k <;> simp [tblGet, tblFind, h, ih]

theorem tblFind_setValue_self (t : InlineTable) (k : String) (v : TomlVal)
    (p s : String) :
    ∃ e, tblFind (setValue t k v p s) k = some e ∧
      e.key = k ∧ e.valPre = p ∧ e.val = v ∧ e.valSuf = s := by
  induction t with
  | nil =>
    refine ⟨⟨defKeyPre, k, defKeySuf, p, v, s⟩, ?_, rfl, rfl, rfl, rfl⟩
    simp [setValue, tblFind]
  | cons e es ih =>
    by_cases h : e.key = k
    · refine ⟨{ e with valPre := p, val := v, valSuf := s }, ?_, h, rfl, rfl, rfl⟩
      simp [setValue, tblFind, h]
    · obtain ⟨e1, h1, h2⟩ := ih
      refine ⟨e1, ?_, h2⟩
      simp [setValue, tblFind, h, h1]

theorem tblFind_setValue_ne (t : InlineTable) {k k' : String} (v : TomlVal)
    (p s : String) (h : k' ≠ k) :
    tblFind (setValue t k v p s) k' = tblFind t k' := by
  induction t with
  | nil => simp [setValue, tblFind, Ne.symm h]
  | cons e es ih =>
    by_cases he : e.key = k
    · have h2 : ¬ e.key = k' := by rw [he]; exact Ne.symm h
      simp [setValue, tblFind, he, h2, Ne.symm h]
    · by_cases he' : e.key = k' <;>
        simp [setValue, tblFind, he, he', ih, h, Ne.symm h]

theorem tblFind_tblRemove_ne (t : InlineTable) {k k' : String} (h : k' ≠ k) :
    tblFind (tblRemove t k) k' = tblFind t k' := by
  induction t with
  | nil => rfl
  | cons e es ih =>
    by_cases he : e.key = k
    · have h2 : ¬ e.key = k' := by rw [he]; exact Ne.symm h
      simp [tblRemove, tblFind, he, h2, ih, Ne.symm h]
    · by_cases he' : e.key = k' <;>
        simp [tblRemove, tblFind, he, he', ih, h, Ne.symm h]

theorem tblGet_setValue_self (t : InlineTable) (k : String) (v : TomlVal)
    (p s : String) : tblGet (setValue t k v p s) k = some v := by
  obtain ⟨e, h1, _, _, h2, _⟩ := tblFind_setValue_self t k v p s
  rw [tblGet_eq_find_val, h1]
  simp [h2]

theorem tblGet_setValue_ne (t : InlineTable) {k k' : String} (v : TomlVal)
    (p s : String) (h : k' ≠ k) :
    tblGet (setValue t k v p s) k' = tblGet t k' := by
  rw [tblGet_eq_find_val, tblFind_setValue_ne t v p s h, ← tblGet_eq_find_val]

theorem tblGet_tblRemove_self (t : InlineTable) (k : String) :
    tblGet (tblRemove t k) k = none := by
  induction t with
  | nil => rfl
  | cons e es ih =>
    by_cases he : e.key = k <;> simp [tblRemove, tblGet, he, ih]

theorem tblGet_tblRemove_ne (t : InlineTable) {k k' : String} (h : k' ≠ k) :
    tblGet (tblRemove t k) k' = tblGet t k' := by
  rw [tblGet_eq_find_val, tblFind_tblRemove_ne t h, ← tblGet_eq_find_val]

theorem setValue_self {t : InlineTable} {k : String} {e : Entry}
    (hf : tblFind t k = some e) {v : TomlVal} {p s : String}
    (hp : e.valPre = p) (hv : e.val = v) (hs : e.valSuf = s) :
    setValue t k v p s = t := by
  induction t with
  | nil => simp [tblFind] at hf
  | cons e0 es ih =>
    by_cases he : e0.key = k
    · simp [tblFind, he] at hf
      subst hf
      simp [setValue, he, ← hp, ← hv, ← hs]
      rw [← he]
    · simp [tblFind, he] at hf
      simp [setValue, he, ih hf]

theorem setValue_append {t : InlineTable} {k : String}
    (h : tblGet t k = none) (v : TomlVal) (p s : String) :
    setValue t k v p s = t ++ [⟨defKeyPre, k, defKeySuf, p, v, s⟩] := by
  induction t with
  | nil => rfl
  | cons e es ih =>
    by_cases he : e.key = k
    · simp [tblGet, he] at h
    · simp [tblGet, he] at h
      simp [setValue, he, ih h]

theorem tblRemove_append (a b : InlineTable) (k : String) :
    tblRemove (a ++ b) k = tblRemove a k ++ tblRemove b k := by
  induction a with
  | nil => rfl
  | cons e es ih =>
    by_cases he : e.key = k <;> simp [tblRemove, he, ih]

theorem tblRemove_idem (t : InlineTable) (k : String) :
    tblRemove (tblRemove t k) k = tblRemove t k := by
  induction t with
  | nil => rfl
  | cons e es ih =>
    by_cases he : e.key = k <;> simp [tblRemove, he, ih]

theorem tblRemove_comm (t : InlineTable) (k k' : String) :
    tblRemove (tblRemove t k) k' = tblRemove (tblRemove t k') k := by
  by_cases hkk : k = k'
  · subst hkk; rfl
  · induction t with
    | nil => rfl
    | cons e es ih =>
      by_cases he : e.key = k <;> by_cases he' : e.key = k'
      · exact absurd (he.symm.trans he') hkk
      · simp [tblRemove, he, he', hkk, Ne.symm hkk, ih]
      · simp [tblRemove, he, he', hkk, Ne.symm hkk, ih]
      · simp [tblRemove, he, he', ih]

theorem tblRemove_setValue_ne {k k' : String} (h : k ≠ k') (t : InlineTable)
    (v : TomlVal) (p s : String) :
    tblRemove (setValue t k' v p s) k = setValue (tblRemove t k) k' v p s := by
  induction t with
  | nil => simp [setValue, tblRemove, Ne.symm h]
  | cons e es ih =>
    by_cases he : e.key = k'
    · have hek : ¬ e.key = k := by rw [he]; exact Ne.symm h
      simp [setValue, tblRemove, he, hek, h, Ne.symm h]
    · by_cases hek : e.key = k <;>
        simp [setValue, tblRemove, he, hek, ih, h, Ne.symm h]

theorem countKey_eq_zero {t : InlineTable} {k : String}
    (h : tblGet t k = none) : countKey t k = 0 := by
  induction t with
  | nil => rfl
  | cons e es ih =>
    by_cases he : e.key = k
    · simp [tblGet, he] at h
    · simp [tblGet, he] at h
      simp [countKey, he, ih h]

theorem countKey_append_single (t : InlineTable) (e : Entry) (k : String)
    (h : e.key = k) :
    countKey (t ++ [e]) k = countKey t k + 1 := by
  induction t with
  | nil => simp [countKey, h]
  | cons e0 es ih =>
    by_cases he : e0.key = k
    · simp [countKey, he, ih]
      omega
    · simp [countKey, he, ih]

theorem tblRemove_of_none {t : InlineTable} {k : String}
    (h : tblGet t k = none) : tblRemove t k = t := by
  induction t with
  | nil => rfl
  | cons e es ih =>
    by_cases he : e.key = k
    · simp [tblGet, he] at h
    · simp [tblGet, he] at h
      simp [tblRemove, he, ih h]

theorem tblGet_remove_keys_tag (t : InlineTable) :
    tblGet (remove_keys t) "tag" = none := by
  unfold remove_keys
  rw [tblGet_tblRemove_ne _ (by decide), tblGet_tblRemove_ne _ (by decide),
    tblGet_tblRemove_self]

theorem tblGet_remove_keys_branch (t : InlineTable) :
    tblGet (remove_keys t) "branch" = none := by
  unfold remove_keys
  rw [tblGet_tblRemove_ne _ (by decide), tblGet_tblRemove_self]

theorem tblGet_remove_keys_rev (t : InlineTable) :
    tblGet (remove_keys t) "rev" = none := by
  unfold remove_keys
  rw [tblGet_tblRemove_self]

theorem tblGet_remove_keys_ne (t : InlineTable) {k : String}
    (h1 : k ≠ "tag") (h2 : k ≠ "branch") (h3 : k ≠ "rev") :
    tblGet (remove_keys t) k = tblGet t k := by
  unfold remove_keys
  rw [tblGet_tblRemove_ne _ h3, tblGet_tblRemove_ne _ h2, tblGet_tblRemove_ne _ h1]

/-- The key a git-ref rewrite inserts (`tag`, `branch` or `rev`), when the
key is a git reference at all. -/
def refKeyName : Key → Option String
  | .Tag _ => some "tag"
  | .Branch _ => some "branch"
  | .Rev _ => some "rev"
  | .Version _ => none

/-- The value a git-ref rewrite inserts. -/
def refKeyVal : Key → String
  | .Tag s => s
  | .Branch s => s
  | .Rev s => s
  | .Version _ => ""

/-- The known upstream repository name of a family-scoped rewrite. -/
def famRepo : Rewrite → Option String
  | .All => none
  | .Substrate _ => some "substrate"
  | .Polkadot _ => some "polkadot"
  | .Cumulus _ => some "cumulus"
  | .Beefy _ => some "grandpa-bridge-gadget"

theorem expect_git_ref_of_refKeyName {key : Key} {rk : String}
    (h : refKeyName key = some rk) : expect_git_ref key = true := by
  cases key <;> simp_all [refKeyName, expect_git_ref]

theorem matchFamily_no_match {r : Rewrite} {fname : String}
    (hf : famRepo r = some fname) {g : String} (hg : g ≠ fname) :
    matchFamily r g = none := by
  cases r <;> simp_all [famRepo, matchFamily]

theorem matchFamily_match {r : Rewrite} {fname : String}
    (hf : famRepo r = some fname) :
    ∃ ng, matchFamily r fname = some ng := by
  cases r <;> simp_all [famRepo, matchFamily]

/-! ## Shared concrete fixtures -/

/-- A fixed collaborator oracle for concrete runs: the registry always
reports version `9.9.9`; the remote lock file records `foo` at `1.2.3`;
local file reads fail. -/
def netFix : Network :=
  ⟨fun _ => .ok "9.9.9",
   fun _ => .ok (some [[("name", "foo"), ("version", "1.2.3")]]),
   fun _ => .error "no file"⟩

/-- A `git = "<url>"` entry. -/
def gitEntry (url : String) : Entry := ⟨" ", "git", " ", " ", .str url, " "⟩

/-- A `branch = "old"` entry. -/
def branchEntry : Entry := ⟨" ", "branch", " ", " ", .str "old", " "⟩

/-- A `path = "../x"` entry. -/
def pathEntry : Entry := ⟨" ", "path", " ", " ", .str "../x", " "⟩

/-- A `workspace = true` entry. -/
def wsEntry : Entry := ⟨" ", "workspace", " ", " ", .other "true", " "⟩

/-- A `package = "foo"` entry. -/
def pkgFooEntry : Entry := ⟨" ", "package", " ", " ", .str "foo", " "⟩

/-- A document whose `dependencies` table declares one dependency named `n`
that renames the package `foo`. -/
def docFooDep (n : String) : Doc :=
  [("dependencies", .table [(n, .inline [pkgFooEntry])])]

theorem remove_keys_append (a b : InlineTable) :
    remove_keys (a ++ b) = remove_keys a ++ remove_keys b := by
  unfold remove_keys
  rw [tblRemove_append, tblRemove_append, tblRemove_append]

theorem tblGet_append_right {a : InlineTable} {k : String}
    (h : tblGet a k = none) (b : InlineTable) :
    tblGet (a ++ b) k = tblGet b k := by
  induction a with
  | nil => rfl
  | cons e es ih =>
    by_cases he : e.key = k
    · simp [tblGet, he] at h
    · simp [tblGet, he] at h
      simp [tblGet, he, ih h]

/-! ## Claim C3 -/

/-- C3, corrected: the run-scoped version cache of `get_version` is keyed by
the *declared dependency name*, not the package name. After a successful
resolution for declared name `name`, any later `get_version` call for the
same declared name — with any package name and any source — performs no
further resolution: it returns the cached version and leaves the whole run
state (including the fetch counter) unchanged. -/
theorem C3_theorem (net : Network) (name pkg : String) (src : VersionSource)
    (st : UpdateState) {v : String} {st' : UpdateState}
    (h : get_version net name pkg src st = (.ok v, st'))
    (pkg' : String) (src' : VersionSource) :
    get_version net name pkg' src' st' = (.ok v, st') := by
  unfold get_version at h ⊢
  cases hl : st.packagesVersion.lookup name with
  | some v0 =>
    rw [hl] at h
    obtain ⟨hv, hst⟩ : Except.ok v0 = Except.ok v ∧ st = st' := by
      constructor
      · exact congrArg Prod.fst h
      · exact congrArg Prod.snd h
    cases hv
    subst hst
    rw [hl]
  | none =>
    rw [hl] at h
    rcases hs : get_version_by_source net pkg src st with ⟨r, st2⟩
    rw [hs] at h
    cases r with
    | ok u =>
      obtain ⟨hv, hst⟩ : Except.ok u = Except.ok v ∧
          ({ st2 with packagesVersion := (name, u) :: st2.packagesVersion }
            : UpdateState) = st' := by
        constructor
        · exact congrArg Prod.fst h
        · exact congrArg Prod.snd h
      cases hv
      subst hst
      simp [List.lookup]
    | error e => exact absurd (congrArg Prod.fst h) (by simp)

/-- C3, counterexample to the claim as stated: two manifests declare
dependencies `a` and `b`, both renaming the same package `foo`
(`package = "foo"`), under a pin-to-version rewrite from the registry. The
claim demands at most one expensive resolution per *package name*, hence at
most one for `foo`; the run performs two (the cache is keyed by the declared
names `a` and `b`). -/
theorem C3_counterexample :
    (update_run netFix .All (.Version .CratesIo) []
      [.ok (docFooDep "a"), .ok (docFooDep "b")] .init).state.fetchCount = 2 ∧
    (update_run netFix .All (.Version .CratesIo) []
      [.ok (docFooDep "a"), .ok (docFooDep "b")] .init).result = .ok () := by
  constructor <;> decide

/-- Witness for C3: after resolving declared name `a` (package `foo`) from
the registry, a later lookup for declared name `a` — even with a different
package name and source — returns the cached version with the state
unchanged. -/
theorem C3_witness :
    get_version netFix "a" "bar" (.Url "u")
        ⟨[("a", "9.9.9")], none, 1⟩ =
      (.ok "9.9.9", ⟨[("a", "9.9.9")], none, 1⟩) :=
  C3_theorem netFix "a" "foo" .CratesIo .init (by rfl) "bar" (.Url "u")

/-! ## Claim C8 -/

/-- C8, confirmed: under a pin-to-version rewrite, a dependency entry whose
effective package name is in the exclusion set is returned untouched, with
no error, and the skip is reported by exactly one debug-level (low
verbosity) log line. -/
theorem C8_theorem (net : Network) (name : String) (dep : InlineTable)
    (r : Rewrite) (src : VersionSource) (ex : List String) (st : UpdateState)
    (h : effectivePackage name dep ∈ ex) :
    handle_dependency net name dep r (.Version src) ex st =
      ⟨.ok dep, st, [⟨.debug,
        "Skipping update for the excluded package " ++
          effectivePackage name dep⟩]⟩ := by
  unfold handle_dependency
  simp [h]

/-- Witness for C8: the dependency `x` renaming excluded package `foo` is
skipped untouched, as one debug log line and no error. -/
theorem C8_witness :
    handle_dependency netFix "x" [pkgFooEntry] .All (.Version .CratesIo)
        ["foo"] .init =
      ⟨.ok [pkgFooEntry], .init,
        [⟨.debug, "Skipping update for the excluded package foo"⟩]⟩ :=
  C8_theorem netFix "x" [pkgFooEntry] .All .CratesIo ["foo"] .init (by decide)

/-! ## Claim C10 -/

/-- C10, confirmed: under a pin-to-version rewrite, an inline-table entry
with no `git`, no `path` and no `version` field (and not excluded) is not
skipped: the resolved version is inserted as a fresh `version` field
appended to the entry (with the other fields, apart from any
`tag`/`branch`/`rev`, preserved). -/
theorem C10_theorem (net : Network) (name : String) (dep : InlineTable)
    (r : Rewrite) (src : VersionSource) (ex : List String) (st : UpdateState)
    (hg : tblGet dep "git" = none) (hp : tblGet dep "path" = none)
    (hv : tblGet dep "version" = none)
    (hx : effectivePackage name dep ∉ ex)
    {v : String} {st' : UpdateState}
    (hres : get_version net name (effectivePackage name dep) src st =
      (.ok v, st')) :
    (handle_dependency net name dep r (.Version src) ex st).result =
      .ok (remove_keys dep ++
        [⟨defKeyPre, "version", defKeySuf, " ", .str v, " "⟩]) ∧
    tblGet (remove_keys dep ++
        [⟨defKeyPre, "version", defKeySuf, " ", .str v, " "⟩]) "version" =
      some (.str v) := by
  have hkeep : remove_keys
      [(⟨defKeyPre, "version", defKeySuf, " ", .str v, " "⟩ : Entry)] =
      [⟨defKeyPre, "version", defKeySuf, " ", .str v, " "⟩] := by
    simp [remove_keys, tblRemove]
  have hform : tblRemove (tblRemove (remove_keys
      (setValue dep "version" (.str v) " " " ")) "path") "git" =
      remove_keys dep ++
        [⟨defKeyPre, "version", defKeySuf, " ", .str v, " "⟩] := by
    rw [setValue_append hv, remove_keys_append, hkeep]
    rw [tblRemove_append, tblRemove_append]
    have hrp : tblRemove (remove_keys dep) "path" = remove_keys dep :=
      tblRemove_of_none (by rw [tblGet_remove_keys_ne dep (by decide)
        (by decide) (by decide)]; exact hp)
    have h1 : tblRemove
        [(⟨defKeyPre, "version", defKeySuf, " ", .str v, " "⟩ : Entry)]
        "path" = [⟨defKeyPre, "version", defKeySuf, " ", .str v, " "⟩] := by
      simp [tblRemove]
    have h2 : tblRemove
        [(⟨defKeyPre, "version", defKeySuf, " ", .str v, " "⟩ : Entry)]
        "git" = [⟨defKeyPre, "version", defKeySuf, " ", .str v, " "⟩] := by
      simp [tblRemove]
    rw [hrp, h1, h2]
    have hrg : tblRemove (remove_keys dep) "git" = remove_keys dep :=
      tblRemove_of_none (by rw [tblGet_remove_keys_ne dep (by decide)
        (by decide) (by decide)]; exact hg)
    rw [hrg]
  constructor
  · unfold handle_dependency
    simp only [hx, if_false, expect_git_ref, ite_false, Bool.false_eq_true]
    rw [hres]
    simp only [hform]
  · rw [tblGet_append_right (by
      rw [tblGet_remove_keys_ne dep (by decide) (by decide) (by decide)]
      exact hv)]
    simp [tblGet]

/-- Witness for C10: a dependency entry consisting only of
`package = "foo"` gains a fresh `version = "9.9.9"` field. -/
theorem C10_witness :
    (handle_dependency netFix "x" [pkgFooEntry] .All (.Version .CratesIo)
        [] .init).result =
      .ok [pkgFooEntry,
        ⟨defKeyPre, "version", defKeySuf, " ", .str "9.9.9", " "⟩] ∧
    tblGet [pkgFooEntry,
        ⟨defKeyPre, "version", defKeySuf, " ", .str "9.9.9", " "⟩]
      "version" = some (.str "9.9.9") :=
  C10_theorem netFix "x" [pkgFooEntry] .All .CratesIo [] .init
    (by decide) (by decide) (by decide) (by decide) (by rfl)

/-! ## Claim C4 -/

/-- C4, confirmed: a pin-to-version rewrite on an entry that previously had
`git`, `branch` and `path` fields leaves exactly a `version` field among the
source-related fields: the result carries the resolved version and no
`git`, `branch`, `tag`, `rev` or `path` field. -/
theorem C4_theorem (net : Network) (name : String) (dep : InlineTable)
    (r : Rewrite) (src : VersionSource) (ex : List String) (st : UpdateState)
    (hx : effectivePackage name dep ∉ ex)
    {gv bv pv : TomlVal}
    (_hg : tblGet dep "git" = some gv) (_hb : tblGet dep "branch" = some bv)
    (_hp : tblGet dep "path" = some pv)
    {v : String} {st' : UpdateState}
    (hres : get_version net name (effectivePackage name dep) src st =
      (.ok v, st')) :
    ∃ t1, handle_dependency net name dep r (.Version src) ex st =
        ⟨.ok t1, st', [⟨.debug, "Updated: " ++ name⟩]⟩ ∧
      tblGet t1 "version" = some (.str v) ∧
      tblGet t1 "git" = none ∧ tblGet t1 "branch" = none ∧
      tblGet t1 "tag" = none ∧ tblGet t1 "rev" = none ∧
      tblGet t1 "path" = none := by
  refine ⟨tblRemove (tblRemove (remove_keys
    (setValue dep "version" (.str v) " " " ")) "path") "git", ?_, ?_, ?_, ?_,
    ?_, ?_, ?_⟩
  · unfold handle_dependency
    simp only [hx, if_false, expect_git_ref, ite_false, Bool.false_eq_true]
    rw [hres]
  · rw [tblGet_tblRemove_ne _ (by decide), tblGet_tblRemove_ne _ (by decide),
      tblGet_remove_keys_ne _ (by decide) (by decide) (by decide),
      tblGet_setValue_self]
  · rw [tblGet_tblRemove_self]
  · rw [tblGet_tblRemove_ne _ (by decide), tblGet_tblRemove_ne _ (by decide),
      tblGet_remove_keys_branch]
  · rw [tblGet_tblRemove_ne _ (by decide), tblGet_tblRemove_ne _ (by decide),
      tblGet_remove_keys_tag]
  · rw [tblGet_tblRemove_ne _ (by decide), tblGet_tblRemove_ne _ (by decide),
      tblGet_remove_keys_rev]
  · rw [tblGet_tblRemove_ne _ (by decide), tblGet_tblRemove_self]

/-- Witness for C4: the entry `{ git = ..., branch = "old", path = "../x" }`
becomes `{ version = "9.9.9" }` under a registry pin-to-version rewrite. -/
theorem C4_witness :
    ∃ t1, handle_dependency netFix "dep"
        [gitEntry "https://github.com/paritytech/substrate", branchEntry,
          pathEntry] .All (.Version .CratesIo) [] .init =
        ⟨.ok t1, ⟨[("dep", "9.9.9")], none, 1⟩,
          [⟨.debug, "Updated: dep"⟩]⟩ ∧
      tblGet t1 "version" = some (.str "9.9.9") ∧
      tblGet t1 "git" = none ∧ tblGet t1 "branch" = none ∧
      tblGet t1 "tag" = none ∧ tblGet t1 "rev" = none ∧
      tblGet t1 "path" = none :=
  @C4_theorem netFix "dep"
    [gitEntry "https://github.com/paritytech/substrate", branchEntry,
      pathEntry] .All .CratesIo [] .init (by decide)
    (.str "https://github.com/paritytech/substrate") (.str "old")
    (.str "../x") (by decide) (by decide) (by decide)
    "9.9.9" ⟨[("dep", "9.9.9")], none, 1⟩ (by rfl)

theorem tblGet_remove_keys_of_mem (t : InlineTable) {rk : String}
    (hrk : rk = "tag" ∨ rk = "branch" ∨ rk = "rev") :
    tblGet (remove_keys t) rk = none := by
  rcases hrk with h | h | h <;> subst h
  · exact tblGet_remove_keys_tag t
  · exact tblGet_remove_keys_branch t
  · exact tblGet_remove_keys_rev t

theorem countKey_setValue_of_none {t : InlineTable} {k : String}
    (h : tblGet t k = none) (v : TomlVal) (p s : String) :
    countKey (setValue t k v p s) k = 1 := by
  rw [setValue_append h, countKey_append_single _ _ _ rfl, countKey_eq_zero h]

/-! ## Claim C2 -/

/-- C2, counterexample to the claim as stated: a dependency entry carrying
both a matching git URL and a `workspace = true` inheritance marker is
rewritten by a pin-to-tag rewrite, but the `workspace` marker is *not*
removed: `remove_keys` only drops `tag`, `branch` and `rev`, so the marker
survives next to the freshly inserted `tag` field. -/
theorem C2_counterexample :
    (handle_dependency netFix "dep"
        [gitEntry "https://github.com/paritytech/substrate", wsEntry]
        (.Substrate none) (.Tag "v1.0") [] .init).result =
      .ok [gitEntry "https://github.com/paritytech/substrate", wsEntry,
        ⟨defKeyPre, "tag", defKeySuf, " ", .str "v1.0", " "⟩] ∧
    tblGet [gitEntry "https://github.com/paritytech/substrate", wsEntry,
        ⟨defKeyPre, "tag", defKeySuf, " ", .str "v1.0", " "⟩] "workspace" =
      some (.other "true") := by
  constructor <;> decide

/-- C2, amended: a pin-to-ref rewrite on a matched entry removes any
existing `tag`, `branch` and `rev` (commit) fields before inserting exactly
one new ref field — but it does not remove a workspace-inheritance marker
field: the `workspace` field, if present, is left exactly as it was. -/
theorem C2_theorem (net : Network) (name : String) (dep : InlineTable)
    (r : Rewrite) (key : Key) (ex : List String) (st : UpdateState)
    {rk url gname : String} {ng : Option String}
    (hk : refKeyName key = some rk)
    (hx : effectivePackage name dep ∉ ex)
    (hgit : tblGet dep "git" = some (.str url))
    (hname : gitUrlName url = some gname)
    (hfam : matchFamily r gname = some ng) :
    ∃ t1, (handle_dependency net name dep r key ex st).result = .ok t1 ∧
      tblGet t1 rk = some (.str (refKeyVal key)) ∧
      countKey t1 rk = 1 ∧
      (∀ rk' ∈ (["tag", "branch", "rev"] : List String), rk' ≠ rk →
        tblGet t1 rk' = none) ∧
      tblGet t1 "workspace" = tblGet dep "workspace" := by
  have hws1 : ∀ dep1 : InlineTable, tblGet dep1 "workspace" = tblGet dep "workspace" →
      ∀ hrk : rk = "tag" ∨ rk = "branch" ∨ rk = "rev", ∀ s : String,
      tblGet (setValue (remove_keys dep1) rk (.str s) " " " ") rk =
          some (.str s) ∧
        countKey (setValue (remove_keys dep1) rk (.str s) " " " ") rk = 1 ∧
        (∀ rk' ∈ (["tag", "branch", "rev"] : List String), rk' ≠ rk →
          tblGet (setValue (remove_keys dep1) rk (.str s) " " " ") rk' =
            none) ∧
        tblGet (setValue (remove_keys dep1) rk (.str s) " " " ")
            "workspace" = tblGet dep "workspace" := by
    intro dep1 hws hrk s
    refine ⟨tblGet_setValue_self _ _ _ _ _,
      countKey_setValue_of_none (tblGet_remove_keys_of_mem dep1 hrk) _ _ _,
      ?_, ?_⟩
    · intro rk' hmem hne
      rw [tblGet_setValue_ne _ _ _ _ hne,
        tblGet_remove_keys_of_mem dep1 (by simpa using hmem)]
    · have hwk : ("workspace" : String) ≠ rk := by
        rcases hrk with h | h | h <;> subst h <;> decide
      rw [tblGet_setValue_ne _ _ _ _ hwk,
        tblGet_remove_keys_ne _ (by decide) (by decide) (by decide), hws]
  have hdep1 : ∀ g : Option String,
      tblGet (match g with
        | some g => setValue dep "git" (.str g) " " ""
        | none => dep) "workspace" = tblGet dep "workspace" := by
    intro g
    cases g with
    | none => rfl
    | some g => exact tblGet_setValue_ne _ _ _ _ (by decide)
  cases key with
  | Version src => simp [refKeyName] at hk
  | Tag s =>
    simp only [refKeyName, Option.some.injEq] at hk
    subst hk
    refine ⟨_, ?_, hws1 _ (hdep1 ng) (Or.inl rfl) s⟩
    unfold handle_dependency
    simp [hx, expect_git_ref, hgit, hname, hfam]
  | Branch s =>
    simp only [refKeyName, Option.some.injEq] at hk
    subst hk
    refine ⟨_, ?_, hws1 _ (hdep1 ng) (Or.inr (Or.inl rfl)) s⟩
    unfold handle_dependency
    simp [hx, expect_git_ref, hgit, hname, hfam]
  | Rev s =>
    simp only [refKeyName, Option.some.injEq] at hk
    subst hk
    refine ⟨_, ?_, hws1 _ (hdep1 ng) (Or.inr (Or.inr rfl)) s⟩
    unfold handle_dependency
    simp [hx, expect_git_ref, hgit, hname, hfam]

/-- Witness for C2 (amended): a pin-to-branch rewrite with a replacement URL
on `{ git = ..., branch = "old", workspace = true }` inserts exactly one
`branch` field, removes the old ref fields, and leaves `workspace = true`
in place. -/
theorem C2_witness :
    ∃ t1, (handle_dependency netFix "dep"
        [gitEntry "https://github.com/paritytech/substrate", branchEntry,
          wsEntry]
        (.Substrate (some "https://example.com/fork/substrate"))
        (.Branch "new") [] .init).result = .ok t1 ∧
      tblGet t1 "branch" = some (.str (refKeyVal (.Branch "new"))) ∧
      countKey t1 "branch" = 1 ∧
      (∀ rk' ∈ (["tag", "branch", "rev"] : List String), rk' ≠ "branch" →
        tblGet t1 rk' = none) ∧
      tblGet t1 "workspace" =
        tblGet [gitEntry "https://github.com/paritytech/substrate",
          branchEntry, wsEntry] "workspace" :=
  @C2_theorem netFix "dep"
    [gitEntry "https://github.com/paritytech/substrate", branchEntry, wsEntry]
    (.Substrate (some "https://example.com/fork/substrate")) (.Branch "new")
    [] .init "branch" "https://github.com/paritytech/substrate" "substrate"
    (some "https://example.com/fork/substrate")
    (by decide) (by decide) (by decide) (by decide) (by decide)

/-! ## Claim C7 -/

/-- C7, confirmed: under a family-scoped pin-to-ref rewrite, among an entry
whose git URL base name equals the family's known repository name, an entry
whose git URL base name is some other name, and an entry with no git field
at all, only the first is mutated (it gains the new ref field); the other
two are returned completely unmodified (same table, same state, no log). -/
theorem C7_theorem (net : Network) (r : Rewrite) (key : Key)
    (ex : List String) (st : UpdateState)
    {rk fname : String} (hk : refKeyName key = some rk)
    (hfam : famRepo r = some fname)
    (nX nY nN : String) (tX tY tN : InlineTable)
    {urlX urlY : String} {gy : String}
    (hgX : tblGet tX "git" = some (.str urlX))
    (hnX : gitUrlName urlX = some fname)
    (hrefX : tblGet tX rk = none)
    (hgY : tblGet tY "git" = some (.str urlY))
    (hnY : gitUrlName urlY = some gy) (hyn : gy ≠ fname)
    (hgN : tblGet tN "git" = none)
    (hxX : effectivePackage nX tX ∉ ex)
    (hxY : effectivePackage nY tY ∉ ex)
    (hxN : effectivePackage nN tN ∉ ex) :
    handle_dependency net nY tY r key ex st = ⟨.ok tY, st, []⟩ ∧
    handle_dependency net nN tN r key ex st = ⟨.ok tN, st, []⟩ ∧
    ∃ t1, (handle_dependency net nX tX r key ex st).result = .ok t1 ∧
      tblGet t1 rk = some (.str (refKeyVal key)) ∧ t1 ≠ tX := by
  have hgr : expect_git_ref key = true := expect_git_ref_of_refKeyName hk
  have hnofam : matchFamily r gy = none := matchFamily_no_match hfam hyn
  refine ⟨?_, ?_, ?_⟩
  · unfold handle_dependency
    simp [hxY, hgr, hgY, hnY, hnofam]
  · unfold handle_dependency
    simp [hxN, hgr, hgN]
  · obtain ⟨ng, hng⟩ := matchFamily_match hfam
    cases key with
    | Version src => simp [refKeyName] at hk
    | Tag s =>
      simp only [refKeyName, Option.some.injEq] at hk
      subst hk
      cases ng with
      | none =>
        refine ⟨setValue (remove_keys tX) "tag" (.str s) " " " ", ?_, ?_, ?_⟩
        · unfold handle_dependency
          simp [hxX, hgr, hgX, hnX, hng]
        · exact tblGet_setValue_self _ _ _ _ _
        · intro hcontra
          have h1 := tblGet_setValue_self (remove_keys tX) "tag" (.str s) " " " "
          rw [hcontra, hrefX] at h1
          exact Option.noConfusion h1
      | some g =>
        refine ⟨setValue (remove_keys (setValue tX "git" (.str g) " " ""))
          "tag" (.str s) " " " ", ?_, ?_, ?_⟩
        · unfold handle_dependency
          simp [hxX, hgr, hgX, hnX, hng]
        · exact tblGet_setValue_self _ _ _ _ _
        · intro hcontra
          have h1 := tblGet_setValue_self
            (remove_keys (setValue tX "git" (.str g) " " "")) "tag" (.str s) " " " "
          rw [hcontra, hrefX] at h1
          exact Option.noConfusion h1
    | Branch s =>
      simp only [refKeyName, Option.some.injEq] at hk
      subst hk
      cases ng with
      | none =>
        refine ⟨setValue (remove_keys tX) "branch" (.str s) " " " ", ?_, ?_, ?_⟩
        · unfold handle_dependency
          simp [hxX, hgr, hgX, hnX, hng]
        · exact tblGet_setValue_self _ _ _ _ _
        · intro hcontra
          have h1 := tblGet_setValue_self (remove_keys tX) "branch" (.str s) " " " "
          rw [hcontra, hrefX] at h1
          exact Option.noConfusion h1
      | some g =>
        refine ⟨setValue (remove_keys (setValue tX "git" (.str g) " " ""))
          "branch" (.str s) " " " ", ?_, ?_, ?_⟩
        · unfold handle_dependency
          simp [hxX, hgr, hgX, hnX, hng]
        · exact tblGet_setValue_self _ _ _ _ _
        · intro hcontra
          have h1 := tblGet_setValue_self
            (remove_keys (setValue tX "git" (.str g) " " "")) "branch" (.str s) " " " "
          rw [hcontra, hrefX] at h1
          exact Option.noConfusion h1
    | Rev s =>
      simp only [refKeyName, Option.some.injEq] at hk
      subst hk
      cases ng with
      | none =>
        refine ⟨setValue (remove_keys tX) "rev" (.str s) " " " ", ?_, ?_, ?_⟩
        · unfold handle_dependency
          simp [hxX, hgr, hgX, hnX, hng]
        · exact tblGet_setValue_self _ _ _ _ _
        · intro hcontra
          have h1 := tblGet_setValue_self (remove_keys tX) "rev" (.str s) " " " "
          rw [hcontra, hrefX] at h1
          exact Option.noConfusion h1
      | some g =>
        refine ⟨setValue (remove_keys (setValue tX "git" (.str g) " " ""))
          "rev" (.str s) " " " ", ?_, ?_, ?_⟩
        · unfold handle_dependency
          simp [hxX, hgr, hgX, hnX, hng]
        · exact tblGet_setValue_self _ _ _ _ _
        · intro hcontra
          have h1 := tblGet_setValue_self
            (remove_keys (setValue tX "git" (.str g) " " "")) "rev" (.str s) " " " "
          rw [hcontra, hrefX] at h1
          exact Option.noConfusion h1

/-- Witness for C7: with family scope `substrate`, the `substrate` entry is
the only one of the three that changes under a pin-to-tag rewrite. -/
theorem C7_witness :
    handle_dependency netFix "y" [gitEntry "https://github.com/org/beta"]
        (.Substrate none) (.Tag "v2.0") [] .init =
      ⟨.ok [gitEntry "https://github.com/org/beta"], .init, []⟩ ∧
    handle_dependency netFix "n" [pathEntry] (.Substrate none) (.Tag "v2.0")
        [] .init =
      ⟨.ok [pathEntry], .init, []⟩ ∧
    ∃ t1, (handle_dependency netFix "x"
        [gitEntry "https://github.com/paritytech/substrate"]
        (.Substrate none) (.Tag "v2.0") [] .init).result = .ok t1 ∧
      tblGet t1 "tag" = some (.str (refKeyVal (.Tag "v2.0"))) ∧
      t1 ≠ [gitEntry "https://github.com/paritytech/substrate"] :=
  @C7_theorem netFix (.Substrate none) (.Tag "v2.0") [] .init
    "tag" "substrate" (rfl) (rfl) "x" "y" "n"
    [gitEntry "https://github.com/paritytech/substrate"]
    [gitEntry "https://github.com/org/beta"] [pathEntry]
    "https://github.com/paritytech/substrate" "https://github.com/org/beta"
    "beta"
    (by decide) (by decide) (by decide) (by decide) (by decide) (by decide)
    (by decide) (by decide) (by decide) (by decide)

/-! ## Claim C1 -/

/-- C1, counterexample to the claim as stated: a run over two files whose
first fails to read/parse. The claim demands the failure be logged, the file
skipped, and the walk continue so the run still completes; instead the
`try_for_each` walk stops at the failing file — the run ends with that error
and the second (perfectly fine) manifest is never processed or written. -/
theorem C1_counterexample :
    (update_run netFix .All (.Version .CratesIo) []
        [.error "invalid TOML", .ok (docFooDep "a")] .init).result =
      .error "invalid TOML" ∧
    (update_run netFix .All (.Version .CratesIo) []
        [.error "invalid TOML", .ok (docFooDep "a")] .init).written = [] := by
  constructor <;> decide

/-- C1, corrected: error containment during an Update run is per-dependency,
not per-file. (1) Handling a manifest that reads and parses successfully
never fails — errors raised while handling an individual dependency (for
example a resolution failure) are logged and that dependency is skipped, so
the file is still processed and written. (2) But a read or parse failure of
a manifest file aborts the whole run at that file: the run's result is that
error, exactly the files before it were processed and written, and the
remaining files are never touched. -/
theorem C1_theorem (net : Network) (r : Rewrite) (key : Key)
    (ex : List String) :
    (∀ (doc : Doc) (st : UpdateState), ∃ doc' st' l,
      handle_toml_file net r key ex (.ok doc) st = ⟨.ok doc', st', l⟩) ∧
    (∀ (pre : List Doc) (e : String) (rest : List (Except String Doc))
      (st : UpdateState),
      (update_run net r key ex
          (pre.map .ok ++ .error e :: rest) st).result = .error e ∧
      (update_run net r key ex
          (pre.map .ok ++ .error e :: rest) st).written.length = pre.length) := by
  constructor
  · intro doc st
    exact ⟨_, _, _, rfl⟩
  · intro pre e rest
    induction pre with
    | nil =>
      intro st
      constructor <;> rfl
    | cons d pre ih =>
      intro st
      have hstep : handle_toml_file net r key ex (.ok d) st =
          ⟨.ok (handleItems net r key ex d st).items,
            (handleItems net r key ex d st).state,
            ⟨.info, "Processing"⟩ :: (handleItems net r key ex d st).logs⟩ := rfl
      constructor
      · simp only [List.map_cons, List.cons_append, update_run, hstep]
        exact (ih ((handleItems net r key ex d st).state)).1
      · simp only [List.map_cons, List.cons_append, update_run, hstep,
          List.length_cons, List.append_eq]
        rw [(ih ((handleItems net r key ex d st).state)).2]

/-! ## Characterisation of `handle_dependency`, towards idempotence -/

/-- The optional git-URL overwrite performed by a matched git-ref rewrite. -/
def applyGit (ng : Option String) (dep : InlineTable) : InlineTable :=
  match ng with
  | some g => setValue dep "git" (.str g) " " ""
  | none => dep

/-- The table produced by a matched git-ref rewrite. -/
def refTarget (ng : Option String) (dep : InlineTable) (rk sv : String) :
    InlineTable :=
  setValue (remove_keys (applyGit ng dep)) rk (.str sv) " " " "

/-- The table produced by a successful pin-to-version rewrite. -/
def verTarget (dep : InlineTable) (v : String) : InlineTable :=
  tblRemove (tblRemove (remove_keys
    (setValue dep "version" (.str v) " " " ")) "path") "git"

theorem DepOut_ok_inj {a b : InlineTable} {s s' : UpdateState}
    {l l' : List LogEntry}
    (h : (⟨.ok a, s, l⟩ : DepOut) = ⟨.ok b, s', l'⟩) :
    a = b ∧ s = s' ∧ l = l' := by
  refine ⟨?_, ?_, ?_⟩
  · have := congrArg DepOut.result h
    simpa using this
  · exact congrArg DepOut.state h
  · exact congrArg DepOut.logs h

theorem hd_excluded (net : Network) (name : String) (dep : InlineTable)
    (r : Rewrite) (key : Key) (ex : List String) (st : UpdateState)
    (hx : effectivePackage name dep ∈ ex) :
    handle_dependency net name dep r key ex st =
      ⟨.ok dep, st, [⟨.debug, "Skipping update for the excluded package " ++
        effectivePackage name dep⟩]⟩ := by
  unfold handle_dependency
  simp [hx]

theorem hd_skip_nogit (net : Network) (name : String) (dep : InlineTable)
    (r : Rewrite) (key : Key) (ex : List String) (st : UpdateState)
    (hx : effectivePackage name dep ∉ ex)
    (hgr : expect_git_ref key = true) (hg : tblGet dep "git" = none) :
    handle_dependency net name dep r key ex st = ⟨.ok dep, st, []⟩ := by
  unfold handle_dependency
  simp [hx, hgr, hg]

theorem hd_skip_othergit (net : Network) (name : String) (dep : InlineTable)
    (r : Rewrite) (key : Key) (ex : List String) (st : UpdateState)
    (hx : effectivePackage name dep ∉ ex)
    (hgr : expect_git_ref key = true) {raw : String}
    (hg : tblGet dep "git" = some (.other raw)) :
    handle_dependency net name dep r key ex st = ⟨.ok dep, st, []⟩ := by
  unfold handle_dependency
  simp [hx, hgr, hg]

theorem hd_skip_noname (net : Network) (name : String) (dep : InlineTable)
    (r : Rewrite) (key : Key) (ex : List String) (st : UpdateState)
    (hx : effectivePackage name dep ∉ ex)
    (hgr : expect_git_ref key = true) {url : String}
    (hg : tblGet dep "git" = some (.str url))
    (hn : gitUrlName url = none) :
    handle_dependency net name dep r key ex st = ⟨.ok dep, st, []⟩ := by
  unfold handle_dependency
  simp [hx, hgr, hg, hn]

theorem hd_skip_nofam (net : Network) (name : String) (dep : InlineTable)
    (r : Rewrite) (key : Key) (ex : List String) (st : UpdateState)
    (hx : effectivePackage name dep ∉ ex)
    (hgr : expect_git_ref key = true) {url gname : String}
    (hg : tblGet dep "git" = some (.str url))
    (hn : gitUrlName url = some gname)
    (hf : matchFamily r gname = none) :
    handle_dependency net name dep r key ex st = ⟨.ok dep, st, []⟩ := by
  unfold handle_dependency
  simp [hx, hgr, hg, hn, hf]

theorem hd_git_char (net : Network) (name : String) (dep : InlineTable)
    (r : Rewrite) (key : Key) (ex : List String) (st : UpdateState)
    (hx : effectivePackage name dep ∉ ex)
    {rk : String} (hk : refKeyName key = some rk) {url gname : String}
    (hg : tblGet dep "git" = some (.str url))
    (hn : gitUrlName url = some gname) {ng : Option String}
    (hf : matchFamily r gname = some ng) :
    handle_dependency net name dep r key ex st =
      ⟨.ok (refTarget ng dep rk (refKeyVal key)), st,
        [⟨.debug, "Updated: " ++ name⟩]⟩ := by
  have hgr : expect_git_ref key = true := expect_git_ref_of_refKeyName hk
  cases key with
  | Version src => simp [refKeyName] at hk
  | Tag s =>
    simp only [refKeyName, Option.some.injEq] at hk
    subst hk
    cases ng with
    | none =>
      unfold handle_dependency
      simp [hx, hgr, hg, hn, hf, refTarget, applyGit, refKeyVal]
    | some g =>
      unfold handle_dependency
      simp [hx, hgr, hg, hn, hf, refTarget, applyGit, refKeyVal]
  | Branch s =>
    simp only [refKeyName, Option.some.injEq] at hk
    subst hk
    cases ng with
    | none =>
      unfold handle_dependency
      simp [hx, hgr, hg, hn, hf, refTarget, applyGit, refKeyVal]
    | some g =>
      unfold handle_dependency
      simp [hx, hgr, hg, hn, hf, refTarget, applyGit, refKeyVal]
  | Rev s =>
    simp only [refKeyName, Option.some.injEq] at hk
    subst hk
    cases ng with
    | none =>
      unfold handle_dependency
      simp [hx, hgr, hg, hn, hf, refTarget, applyGit, refKeyVal]
    | some g =>
      unfold handle_dependency
      simp [hx, hgr, hg, hn, hf, refTarget, applyGit, refKeyVal]

theorem hd_version_char (net : Network) (name : String) (dep : InlineTable)
    (r : Rewrite) (src : VersionSource) (ex : List String) (st : UpdateState)
    (hx : effectivePackage name dep ∉ ex)
    {v : String} {st2 : UpdateState}
    (hv : get_version net name (effectivePackage name dep) src st =
      (.ok v, st2)) :
    handle_dependency net name dep r (.Version src) ex st =
      ⟨.ok (verTarget dep v), st2, [⟨.debug, "Updated: " ++ name⟩]⟩ := by
  unfold handle_dependency
  simp only [hx, expect_git_ref, ite_false, Bool.false_eq_true, if_false]
  rw [hv]
  simp [verTarget]

theorem hd_version_err (net : Network) (name : String) (dep : InlineTable)
    (r : Rewrite) (src : VersionSource) (ex : List String) (st : UpdateState)
    (hx : effectivePackage name dep ∉ ex)
    {e : String} {st2 : UpdateState}
    (hv : get_version net name (effectivePackage name dep) src st =
      (.error e, st2)) :
    handle_dependency net name dep r (.Version src) ex st =
      ⟨.error e, st2, []⟩ := by
  unfold handle_dependency
  simp only [hx, expect_git_ref, ite_false, Bool.false_eq_true, if_false]
  rw [hv]

/-! ## Replay algebra: applying a rewrite to its own output -/

theorem matchFamily_payload {r : Rewrite} {a b : String}
    {x y : Option String} (ha : matchFamily r a = some x)
    (hb : matchFamily r b = some y) : x = y := by
  cases r with
  | All => simp [matchFamily] at ha hb; rw [← ha, ← hb]
  | Substrate g =>
    simp [matchFamily] at ha hb
    rw [← ha.2, ← hb.2]
  | Polkadot g =>
    simp [matchFamily] at ha hb
    rw [← ha.2, ← hb.2]
  | Cumulus g =>
    simp [matchFamily] at ha hb
    rw [← ha.2, ← hb.2]
  | Beefy g =>
    simp [matchFamily] at ha hb
    rw [← ha.2, ← hb.2]

theorem tblFind_remove_keys_ne {k : String} (h1 : k ≠ "tag")
    (h2 : k ≠ "branch") (h3 : k ≠ "rev") (t : InlineTable) :
    tblFind (remove_keys t) k = tblFind t k := by
  unfold remove_keys
  rw [tblFind_tblRemove_ne _ h3, tblFind_tblRemove_ne _ h2,
    tblFind_tblRemove_ne _ h1]

theorem tblRemove_remove_keys (t : InlineTable) (k : String) :
    tblRemove (remove_keys t) k = remove_keys (tblRemove t k) := by
  unfold remove_keys
  rw [tblRemove_comm (tblRemove (tblRemove t "tag") "branch") "rev" k,
    tblRemove_comm (tblRemove t "tag") "branch" k,
    tblRemove_comm t "tag" k]

theorem remove_keys_tblRemove_mem (t : InlineTable) {k : String}
    (hk : k = "tag" ∨ k = "branch" ∨ k = "rev") :
    remove_keys (tblRemove t k) = remove_keys t := by
  rcases hk with h | h | h <;> subst h <;> unfold remove_keys
  · rw [tblRemove_idem]
  · rw [tblRemove_comm t "branch" "tag", tblRemove_idem]
  · rw [tblRemove_comm t "rev" "tag",
      tblRemove_comm (tblRemove t "tag") "rev" "branch", tblRemove_idem]

theorem remove_keys_idem (t : InlineTable) :
    remove_keys (remove_keys t) = remove_keys t := by
  show remove_keys (tblRemove (tblRemove (tblRemove t "tag") "branch")
    "rev") = _
  rw [remove_keys_tblRemove_mem _ (Or.inr (Or.inr rfl)),
    remove_keys_tblRemove_mem _ (Or.inr (Or.inl rfl)),
    remove_keys_tblRemove_mem _ (Or.inl rfl)]

theorem remove_keys_single_ref {rk : String}
    (hrk : rk = "tag" ∨ rk = "branch" ∨ rk = "rev") (p s : String)
    (v : TomlVal) :
    remove_keys [(⟨defKeyPre, rk, defKeySuf, p, v, s⟩ : Entry)] = [] := by
  rcases hrk with h | h | h <;> subst h <;> simp [remove_keys, tblRemove]

theorem remove_keys_refTarget {rk : String}
    (hrk : rk = "tag" ∨ rk = "branch" ∨ rk = "rev") (d : InlineTable)
    (sv : String) :
    remove_keys (setValue (remove_keys d) rk (.str sv) " " " ") =
      remove_keys d := by
  rw [setValue_append (tblGet_remove_keys_of_mem d hrk), remove_keys_append,
    remove_keys_single_ref hrk, List.append_nil, remove_keys_idem]

theorem tblFind_verTarget_ne {k : String} (h1 : k ≠ "git") (h2 : k ≠ "path")
    (h3 : k ≠ "tag") (h4 : k ≠ "branch") (h5 : k ≠ "rev")
    (dep : InlineTable) (v : String) :
    tblFind (verTarget dep v) k =
      tblFind (setValue dep "version" (.str v) " " " ") k := by
  unfold verTarget
  rw [tblFind_tblRemove_ne _ h1, tblFind_tblRemove_ne _ h2,
    tblFind_remove_keys_ne h3 h4 h5]

theorem verTarget_replay (dep : InlineTable) (v : String) :
    verTarget (verTarget dep v) v = verTarget dep v := by
  have hset : setValue (verTarget dep v) "version" (.str v) " " " " =
      verTarget dep v := by
    obtain ⟨e, he, _hk, hp, hv, hs⟩ :=
      tblFind_setValue_self dep "version" (.str v) " " " "
    exact setValue_self (by
      rw [tblFind_verTarget_ne (by decide) (by decide) (by decide)
        (by decide) (by decide), he]) hp hv hs
  show tblRemove (tblRemove (remove_keys
    (setValue (verTarget dep v) "version" (.str v) " " " ")) "path") "git" = _
  rw [hset]
  have hrk : remove_keys (verTarget dep v) =
      tblRemove (tblRemove (remove_keys
        (setValue dep "version" (.str v) " " " ")) "path") "git" := by
    unfold verTarget
    rw [← tblRemove_remove_keys, ← tblRemove_remove_keys, remove_keys_idem]
  rw [hrk]
  unfold verTarget
  rw [tblRemove_comm (tblRemove (remove_keys
      (setValue dep "version" (.str v) " " " ")) "path") "git" "path",
    tblRemove_idem, tblRemove_idem]

theorem tblGet_verTarget_package (dep : InlineTable) (v : String) :
    tblGet (verTarget dep v) "package" = tblGet dep "package" := by
  unfold verTarget
  rw [tblGet_tblRemove_ne _ (by decide), tblGet_tblRemove_ne _ (by decide),
    tblGet_remove_keys_ne _ (by decide) (by decide) (by decide),
    tblGet_setValue_ne _ _ _ _ (by decide)]

theorem effectivePackage_congr {t t' : InlineTable} (name : String)
    (h : tblGet t "package" = tblGet t' "package") :
    effectivePackage name t = effectivePackage name t' := by
  unfold effectivePackage
  rw [h]

theorem tblGet_applyGit_package (ng : Option String) (dep : InlineTable) :
    tblGet (applyGit ng dep) "package" = tblGet dep "package" := by
  cases ng with
  | none => rfl
  | some g => exact tblGet_setValue_ne _ _ _ _ (by decide)

theorem tblGet_refTarget_package {rk : String}
    (hrk : rk = "tag" ∨ rk = "branch" ∨ rk = "rev")
    (ng : Option String) (dep : InlineTable) (sv : String) :
    tblGet (refTarget ng dep rk sv) "package" = tblGet dep "package" := by
  unfold refTarget
  have hpk : ("package" : String) ≠ rk := by
    rcases hrk with h | h | h <;> subst h <;> decide
  rw [tblGet_setValue_ne _ _ _ _ hpk,
    tblGet_remove_keys_ne _ (by decide) (by decide) (by decide),
    tblGet_applyGit_package]

theorem tblFind_refTarget_git {rk : String}
    (hrk : rk = "tag" ∨ rk = "branch" ∨ rk = "rev")
    (ng : Option String) (dep : InlineTable) (sv : String) :
    tblFind (refTarget ng dep rk sv) "git" = tblFind (applyGit ng dep) "git" := by
  unfold refTarget
  have hgk : ("git" : String) ≠ rk := by
    rcases hrk with h | h | h <;> subst h <;> decide
  rw [tblFind_setValue_ne _ _ _ _ hgk,
    tblFind_remove_keys_ne (by decide) (by decide) (by decide)]

theorem applyGit_refTarget {rk : String}
    (hrk : rk = "tag" ∨ rk = "branch" ∨ rk = "rev")
    (ng : Option String) (dep : InlineTable) (sv : String) :
    applyGit ng (refTarget ng dep rk sv) = refTarget ng dep rk sv := by
  cases ng with
  | none => rfl
  | some g =>
    show setValue (refTarget (some g) dep rk sv) "git" (.str g) " " "" = _
    obtain ⟨e, he, _hk, hp, hv, hs⟩ :=
      tblFind_setValue_self dep "git" (.str g) " " ""
    exact setValue_self (by
      rw [tblFind_refTarget_git hrk]
      show tblFind (setValue dep "git" (.str g) " " "") "git" = some e
      exact he) hp hv hs

theorem refTarget_replay {rk : String}
    (hrk : rk = "tag" ∨ rk = "branch" ∨ rk = "rev")
    (ng : Option String) (dep : InlineTable) (sv : String) :
    refTarget ng (refTarget ng dep rk sv) rk sv = refTarget ng dep rk sv := by
  show setValue (remove_keys (applyGit ng (refTarget ng dep rk sv))) rk
    (.str sv) " " " " = _
  rw [applyGit_refTarget hrk]
  show setValue (remove_keys (setValue (remove_keys (applyGit ng dep)) rk
    (.str sv) " " " ")) rk (.str sv) " " " " = _
  rw [remove_keys_refTarget hrk]
  rfl

theorem tblGet_refTarget_git {rk : String}
    (hrk : rk = "tag" ∨ rk = "branch" ∨ rk = "rev")
    (ng : Option String) (dep : InlineTable) (sv : String) :
    tblGet (refTarget ng dep rk sv) "git" = tblGet (applyGit ng dep) "git" := by
  rw [tblGet_eq_find_val, tblFind_refTarget_git hrk, ← tblGet_eq_find_val]

/-- Applying `handle_dependency` to its own successful output (with the same
rewrite, key, exclusions and starting state) reproduces that output: same
table, same resulting state. -/
theorem handle_dependency_idem (net : Network) (name : String)
    (dep : InlineTable) (r : Rewrite) (key : Key) (ex : List String)
    (st : UpdateState) {t1 : InlineTable} {st1 : UpdateState}
    {l1 : List LogEntry}
    (h : handle_dependency net name dep r key ex st = ⟨.ok t1, st1, l1⟩) :
    ∃ l2, handle_dependency net name t1 r key ex st = ⟨.ok t1, st1, l2⟩ := by
  by_cases hx : effectivePackage name dep ∈ ex
  · rw [hd_excluded net name dep r key ex st hx] at h
    obtain ⟨h1, h2, -⟩ := DepOut_ok_inj h
    subst h1; subst h2
    exact ⟨_, hd_excluded net name dep r key ex st hx⟩
  · cases hkey : refKeyName key with
    | none =>
      cases key with
      | Tag s => simp [refKeyName] at hkey
      | Branch s => simp [refKeyName] at hkey
      | Rev s => simp [refKeyName] at hkey
      | Version src =>
        rcases hv : get_version net name (effectivePackage name dep) src st
          with ⟨res, st2⟩
        cases res with
        | error e =>
          rw [hd_version_err net name dep r src ex st hx hv] at h
          exact absurd (congrArg DepOut.result h) (by simp)
        | ok v =>
          rw [hd_version_char net name dep r src ex st hx hv] at h
          obtain ⟨h1, h2, -⟩ := DepOut_ok_inj h
          subst h1; subst h2
          have hpk := effectivePackage_congr name
            (tblGet_verTarget_package dep v)
          have hx2 : effectivePackage name (verTarget dep v) ∉ ex := by
            rw [hpk]; exact hx
          have hv2 : get_version net name
              (effectivePackage name (verTarget dep v)) src st =
              (.ok v, st2) := by
            rw [hpk]; exact hv
          exact ⟨[⟨.debug, "Updated: " ++ name⟩], by
            rw [hd_version_char net name (verTarget dep v) r src ex st hx2
              hv2, verTarget_replay]⟩
    | some rk =>
      have hgr : expect_git_ref key = true := expect_git_ref_of_refKeyName hkey
      have hrk3 : rk = "tag" ∨ rk = "branch" ∨ rk = "rev" := by
        cases key <;> simp_all [refKeyName]
      cases hg : tblGet dep "git" with
      | none =>
        rw [hd_skip_nogit net name dep r key ex st hx hgr hg] at h
        obtain ⟨h1, h2, -⟩ := DepOut_ok_inj h
        subst h1; subst h2
        exact ⟨_, hd_skip_nogit net name dep r key ex st hx hgr hg⟩
      | some val =>
        cases val with
        | other raw =>
          rw [hd_skip_othergit net name dep r key ex st hx hgr hg] at h
          obtain ⟨h1, h2, -⟩ := DepOut_ok_inj h
          subst h1; subst h2
          exact ⟨_, hd_skip_othergit net name dep r key ex st hx hgr hg⟩
        | str url =>
          cases hn : gitUrlName url with
          | none =>
            rw [hd_skip_noname net name dep r key ex st hx hgr hg hn] at h
            obtain ⟨h1, h2, -⟩ := DepOut_ok_inj h
            subst h1; subst h2
            exact ⟨_, hd_skip_noname net name dep r key ex st hx hgr hg hn⟩
          | some gname =>
            cases hf : matchFamily r gname with
            | none =>
              rw [hd_skip_nofam net name dep r key ex st hx hgr hg hn hf] at h
              obtain ⟨h1, h2, -⟩ := DepOut_ok_inj h
              subst h1; subst h2
              exact ⟨_, hd_skip_nofam net name dep r key ex st hx hgr hg hn hf⟩
            | some ng =>
              rw [hd_git_char net name dep r key ex st hx hkey hg hn hf] at h
              obtain ⟨h1, h2, -⟩ := DepOut_ok_inj h
              subst h1; subst h2
              have hpk := effectivePackage_congr name
                (tblGet_refTarget_package hrk3 ng dep (refKeyVal key))
              have hx2 : effectivePackage name
                  (refTarget ng dep rk (refKeyVal key)) ∉ ex := by
                rw [hpk]; exact hx
              have hg2 : tblGet (refTarget ng dep rk (refKeyVal key)) "git" =
                  tblGet (applyGit ng dep) "git" :=
                tblGet_refTarget_git hrk3 ng dep (refKeyVal key)
              cases ng with
              | none =>
                exact ⟨[⟨.debug, "Updated: " ++ name⟩], by
                  rw [hd_git_char net name
                    (refTarget none dep rk (refKeyVal key)) r key ex st hx2
                    hkey (hg2.trans hg) hn hf, refTarget_replay hrk3]⟩
              | some g =>
                have hg2' : tblGet (refTarget (some g) dep rk (refKeyVal key))
                    "git" = some (.str g) :=
                  hg2.trans (tblGet_setValue_self dep "git" (.str g) " " "")
                cases hn2 : gitUrlName g with
                | none =>
                  exact ⟨_, hd_skip_noname net name _ r key ex st hx2 hgr
                    hg2' hn2⟩
                | some gname2 =>
                  cases hf2 : matchFamily r gname2 with
                  | none =>
                    exact ⟨_, hd_skip_nofam net name _ r key ex st hx2 hgr
                      hg2' hn2 hf2⟩
                  | some ng2 =>
                    have hng2 : ng2 = some g := matchFamily_payload hf2 hf
                    subst hng2
                    exact ⟨[⟨.debug, "Updated: " ++ name⟩], by
                      rw [hd_git_char net name
                        (refTarget (some g) dep rk (refKeyVal key)) r key ex
                        st hx2 hkey hg2' hn2 hf2, refTarget_replay hrk3]⟩

theorem RowsOut_inj {a b : List (String × RowItem)} {s s' : UpdateState}
    {l l' : List LogEntry}
    (h : (⟨a, s, l⟩ : RowsOut) = ⟨b, s', l'⟩) : a = b ∧ s = s' ∧ l = l' :=
  ⟨congrArg RowsOut.rows h, congrArg RowsOut.state h,
    congrArg RowsOut.logs h⟩

theorem ItemsOut_inj {a b : Doc} {s s' : UpdateState} {l l' : List LogEntry}
    (h : (⟨a, s, l⟩ : ItemsOut) = ⟨b, s', l'⟩) : a = b ∧ s = s' ∧ l = l' :=
  ⟨congrArg ItemsOut.items h, congrArg ItemsOut.state h,
    congrArg ItemsOut.logs h⟩

/-! Equation lemmas for the per-file drivers. -/

theorem handleRows_cons_inline_ok (net : Network) (r : Rewrite) (key : Key)
    (ex : List String) (dn : String) (t : InlineTable)
    (rest : List (String × RowItem)) (st : UpdateState)
    {t' : InlineTable} {st2 : UpdateState} {l : List LogEntry}
    (hd : handle_dependency net dn t r key ex st = ⟨.ok t', st2, l⟩)
    {rr : List (String × RowItem)} {rst : UpdateState} {rl : List LogEntry}
    (hR : handleRows net r key ex rest st2 = ⟨rr, rst, rl⟩) :
    handleRows net r key ex ((dn, .inline t) :: rest) st =
      ⟨(dn, .inline t') :: rr, rst, l ++ rl⟩ := by
  unfold handleRows
  simp only []
  rw [hd]
  simp only []
  rw [hR]

theorem handleRows_cons_inline_err (net : Network) (r : Rewrite) (key : Key)
    (ex : List String) (dn : String) (t : InlineTable)
    (rest : List (String × RowItem)) (st : UpdateState)
    {e : String} {st2 : UpdateState} {l : List LogEntry}
    (hd : handle_dependency net dn t r key ex st = ⟨.error e, st2, l⟩)
    {rr : List (String × RowItem)} {rst : UpdateState} {rl : List LogEntry}
    (hR : handleRows net r key ex rest st2 = ⟨rr, rst, rl⟩) :
    handleRows net r key ex ((dn, .inline t) :: rest) st =
      ⟨(dn, .inline t) :: rr, rst,
        l ++ [⟨.error, "Error handling dependency: " ++ e⟩] ++ rl⟩ := by
  unfold handleRows
  simp only []
  rw [hd]
  simp only []
  rw [hR]

theorem handleRows_cons_other (net : Network) (r : Rewrite) (key : Key)
    (ex : List String) (dn : String) {row : RowItem}
    (hrow : ∀ t0, row ≠ RowItem.inline t0)
    (rest : List (String × RowItem)) (st : UpdateState)
    {rr : List (String × RowItem)} {rst : UpdateState} {rl : List LogEntry}
    (hR : handleRows net r key ex rest st = ⟨rr, rst, rl⟩) :
    handleRows net r key ex ((dn, row) :: rest) st =
      ⟨(dn, row) :: rr, rst, rl⟩ := by
  cases row with
  | inline t0 => exact absurd rfl (hrow t0)
  | strVal sv =>
    unfold handleRows
    simp only []
    rw [hR]
  | arr a =>
    unfold handleRows
    simp only []
    rw [hR]
  | otherRow raw =>
    unfold handleRows
    simp only []
    rw [hR]

theorem handleItems_cons_table_dep (net : Network) (r : Rewrite) (key : Key)
    (ex : List String) (k : String) (rows : List (String × RowItem))
    (rest : Doc) (st : UpdateState)
    (hdep : strContains k "dependencies" = true)
    {rr : List (String × RowItem)} {rst : UpdateState} {rl : List LogEntry}
    (hR : handleRows net r key ex rows st = ⟨rr, rst, rl⟩)
    {ri : Doc} {rist : UpdateState} {ril : List LogEntry}
    (hI : handleItems net r key ex rest rst = ⟨ri, rist, ril⟩) :
    handleItems net r key ex ((k, .table rows) :: rest) st =
      ⟨(k, .table rr) :: ri, rist, rl ++ ril⟩ := by
  unfold handleItems
  simp only [hdep, if_true]
  rw [hR]
  simp only []
  rw [hI]

theorem handleItems_cons_table_nodep (net : Network) (r : Rewrite)
    (key : Key) (ex : List String) (k : String)
    (rows : List (String × RowItem)) (rest : Doc) (st : UpdateState)
    (hdep : ¬ strContains k "dependencies" = true)
    {ri : Doc} {rist : UpdateState} {ril : List LogEntry}
    (hI : handleItems net r key ex rest st = ⟨ri, rist, ril⟩) :
    handleItems net r key ex ((k, .table rows) :: rest) st =
      ⟨(k, .table rows) :: ri, rist, ril⟩ := by
  unfold handleItems
  simp only []
  rw [hI]
  simp [hdep]

theorem handleItems_cons_other (net : Network) (r : Rewrite) (key : Key)
    (ex : List String) (k : String) {raw : String} (rest : Doc)
    (st : UpdateState)
    {ri : Doc} {rist : UpdateState} {ril : List LogEntry}
    (hI : handleItems net r key ex rest st = ⟨ri, rist, ril⟩) :
    handleItems net r key ex ((k, .otherTop raw) :: rest) st =
      ⟨(k, .otherTop raw) :: ri, rist, ril⟩ := by
  unfold handleItems
  simp only []
  rw [hI]

theorem handle_toml_file_ok (net : Network) (r : Rewrite) (key : Key)
    (ex : List String) (doc : Doc) (st : UpdateState)
    {ri : Doc} {rist : UpdateState} {ril : List LogEntry}
    (hI : handleItems net r key ex doc st = ⟨ri, rist, ril⟩) :
    handle_toml_file net r key ex (.ok doc) st =
      ⟨.ok ri, rist, ⟨.info, "Processing"⟩ :: ril⟩ := by
  unfold handle_toml_file
  simp only []
  rw [hI]

/-- Applying the per-table row pass to its own output reproduces it. -/
theorem handleRows_idem (net : Network) (r : Rewrite) (key : Key)
    (ex : List String) (rows : List (String × RowItem)) (st : UpdateState)
    {rows1 : List (String × RowItem)} {st1 : UpdateState}
    {l1 : List LogEntry}
    (h : handleRows net r key ex rows st = ⟨rows1, st1, l1⟩) :
    ∃ l2, handleRows net r key ex rows1 st = ⟨rows1, st1, l2⟩ := by
  induction rows generalizing rows1 st st1 l1 with
  | nil =>
    obtain ⟨h1, h2, -⟩ := RowsOut_inj h
    subst h1; subst h2
    exact ⟨[], rfl⟩
  | cons p rest ih =>
    obtain ⟨dn, row⟩ := p
    cases row with
    | inline t =>
      rcases hd : handle_dependency net dn t r key ex st with ⟨res, st2, l⟩
      cases res with
      | ok t' =>
        rcases hR : handleRows net r key ex rest st2 with ⟨rr, rst, rl⟩
        rw [handleRows_cons_inline_ok net r key ex dn t rest st hd hR] at h
        obtain ⟨h1, h2, -⟩ := RowsOut_inj h
        subst h1; subst h2
        obtain ⟨ld, hd2⟩ := handle_dependency_idem net dn t r key ex st hd
        obtain ⟨lr, hR2⟩ := ih st2 hR
        exact ⟨ld ++ lr,
          handleRows_cons_inline_ok net r key ex dn t' rr st hd2 hR2⟩
      | error e =>
        rcases hR : handleRows net r key ex rest st2 with ⟨rr, rst, rl⟩
        rw [handleRows_cons_inline_err net r key ex dn t rest st hd hR] at h
        obtain ⟨h1, h2, -⟩ := RowsOut_inj h
        subst h1; subst h2
        obtain ⟨lr, hR2⟩ := ih st2 hR
        exact ⟨l ++ [⟨.error, "Error handling dependency: " ++ e⟩] ++ lr,
          handleRows_cons_inline_err net r key ex dn t rr st hd hR2⟩
    | strVal sv =>
      rcases hR : handleRows net r key ex rest st with ⟨rr, rst, rl⟩
      rw [handleRows_cons_other net r key ex dn (fun t0 h0 =>
        RowItem.noConfusion h0) rest st hR] at h
      obtain ⟨h1, h2, -⟩ := RowsOut_inj h
      subst h1; subst h2
      obtain ⟨lr, hR2⟩ := ih st hR
      exact ⟨lr, handleRows_cons_other net r key ex dn (fun t0 h0 =>
        RowItem.noConfusion h0) rr st hR2⟩
    | arr a =>
      rcases hR : handleRows net r key ex rest st with ⟨rr, rst, rl⟩
      rw [handleRows_cons_other net r key ex dn (fun t0 h0 =>
        RowItem.noConfusion h0) rest st hR] at h
      obtain ⟨h1, h2, -⟩ := RowsOut_inj h
      subst h1; subst h2
      obtain ⟨lr, hR2⟩ := ih st hR
      exact ⟨lr, handleRows_cons_other net r key ex dn (fun t0 h0 =>
        RowItem.noConfusion h0) rr st hR2⟩
    | otherRow raw =>
      rcases hR : handleRows net r key ex rest st with ⟨rr, rst, rl⟩
      rw [handleRows_cons_other net r key ex dn (fun t0 h0 =>
        RowItem.noConfusion h0) rest st hR] at h
      obtain ⟨h1, h2, -⟩ := RowsOut_inj h
      subst h1; subst h2
      obtain ⟨lr, hR2⟩ := ih st hR
      exact ⟨lr, handleRows_cons_other net r key ex dn (fun t0 h0 =>
        RowItem.noConfusion h0) rr st hR2⟩

/-- Applying the per-document item pass to its own output reproduces it. -/
theorem handleItems_idem (net : Network) (r : Rewrite) (key : Key)
    (ex : List String) (doc : Doc) (st : UpdateState)
    {doc1 : Doc} {st1 : UpdateState} {l1 : List LogEntry}
    (h : handleItems net r key ex doc st = ⟨doc1, st1, l1⟩) :
    ∃ l2, handleItems net r key ex doc1 st = ⟨doc1, st1, l2⟩ := by
  induction doc generalizing doc1 st st1 l1 with
  | nil =>
    obtain ⟨h1, h2, -⟩ := ItemsOut_inj h
    subst h1; subst h2
    exact ⟨[], rfl⟩
  | cons p rest ih =>
    obtain ⟨k, item⟩ := p
    cases item with
    | table rows =>
      by_cases hdep : strContains k "dependencies" = true
      · rcases hR : handleRows net r key ex rows st with ⟨rr, rst, rl⟩
        rcases hI : handleItems net r key ex rest rst with ⟨ri, rist, ril⟩
        rw [handleItems_cons_table_dep net r key ex k rows rest st hdep hR
          hI] at h
        obtain ⟨h1, h2, -⟩ := ItemsOut_inj h
        subst h1; subst h2
        obtain ⟨lr, hR2⟩ := handleRows_idem net r key ex rows st hR
        obtain ⟨li, hI2⟩ := ih rst hI
        exact ⟨lr ++ li,
          handleItems_cons_table_dep net r key ex k rr ri st hdep hR2 hI2⟩
      · rcases hI : handleItems net r key ex rest st with ⟨ri, rist, ril⟩
        rw [handleItems_cons_table_nodep net r key ex k rows rest st hdep
          hI] at h
        obtain ⟨h1, h2, -⟩ := ItemsOut_inj h
        subst h1; subst h2
        obtain ⟨li, hI2⟩ := ih st hI
        exact ⟨li,
          handleItems_cons_table_nodep net r key ex k rows ri st hdep hI2⟩
    | otherTop raw =>
      rcases hI : handleItems net r key ex rest st with ⟨ri, rist, ril⟩
      rw [handleItems_cons_other net r key ex k rest st hI] at h
      obtain ⟨h1, h2, -⟩ := ItemsOut_inj h
      subst h1; subst h2
      obtain ⟨li, hI2⟩ := ih st hI
      exact ⟨li, handleItems_cons_other net r key ex k ri st hI2⟩

theorem FileOut_ok_inj {a b : Doc} {s s' : UpdateState}
    {l l' : List LogEntry}
    (h : (⟨.ok a, s, l⟩ : FileOut) = ⟨.ok b, s', l'⟩) :
    a = b ∧ s = s' ∧ l = l' := by
  refine ⟨?_, congrArg FileOut.state h, congrArg FileOut.logs h⟩
  have := congrArg FileOut.result h
  simpa using this

/-! ## Claim C5 -/

/-- C5, confirmed: applying the same pin-to-ref or pin-to-version rewrite
(same rewrite scope, same key, same exclusions, and the same fresh run
state) a second time to the document written by a first application
reproduces that document exactly — the written output (hence its rendered
bytes) and even the resulting run state are identical, so no ref or version
field is duplicated and no whitespace accumulates. -/
theorem C5_theorem (net : Network) (r : Rewrite) (key : Key)
    (ex : List String) (doc : Doc) (st : UpdateState)
    {doc1 : Doc} {st1 : UpdateState} {l1 : List LogEntry}
    (h : handle_toml_file net r key ex (.ok doc) st = ⟨.ok doc1, st1, l1⟩) :
    ∃ l2, handle_toml_file net r key ex (.ok doc1) st =
      ⟨.ok doc1, st1, l2⟩ := by
  rcases hI : handleItems net r key ex doc st with ⟨ri, rist, ril⟩
  rw [handle_toml_file_ok net r key ex doc st hI] at h
  obtain ⟨h1, h2, -⟩ := FileOut_ok_inj h
  subst h1; subst h2
  obtain ⟨li, hI2⟩ := handleItems_idem net r key ex doc st hI
  exact ⟨⟨.info, "Processing"⟩ :: li,
    handle_toml_file_ok net r key ex ri st hI2⟩

/-- A manifest with one substrate dependency pinned to a branch. -/
def c5Doc : Doc :=
  [("dependencies", .table [("dep", .inline
    [gitEntry "https://example.com/org/substrate", branchEntry])])]

/-- The same manifest after the pin-to-tag rewrite. -/
def c5Doc1 : Doc :=
  [("dependencies", .table [("dep", .inline
    [gitEntry "https://example.com/org/substrate",
      ⟨defKeyPre, "tag", defKeySuf, " ", .str "v2.0", " "⟩])])]

/-- Witness for C5: re-running the pin-to-tag rewrite on the already
rewritten manifest writes back exactly the same document. -/
theorem C5_witness :
    ∃ l2, handle_toml_file netFix (.Substrate none) (.Tag "v2.0") []
      (.ok c5Doc1) .init = ⟨.ok c5Doc1, .init, l2⟩ :=
  @C5_theorem netFix (.Substrate none) (.Tag "v2.0") [] c5Doc .init
    c5Doc1 .init [⟨.info, "Processing"⟩, ⟨.debug, "Updated: dep"⟩]
    (by decide)

/-! ## Claim C9 -/

theorem pLE_total : ∀ a b : Path, (pLE a b || pLE b a) = true
  | [], b => by simp [pLE]
  | a :: as, [] => by simp [pLE]
  | a :: as, b :: bs => by
    by_cases h1 : a < b
    · have h2 : ¬ b < a := fun h => absurd (lt_trans h1 h) (lt_irrefl a)
      simp [pLE, h1, h2]
    · by_cases h2 : b < a
      · simp [pLE, h1, h2]
      · have hab : a = b := le_antisymm (not_lt.mp h2) (not_lt.mp h1)
        subst hab
        simp [pLE, h1, h2]
        simpa using pLE_total as bs

theorem pLE_trans : ∀ a b c : Path, pLE a b = true → pLE b c = true →
    pLE a c = true
  | [], _, _, _, _ => by simp [pLE]
  | a :: as, [], c, hab, _ => by simp [pLE] at hab
  | a :: as, b :: bs, [], _, hbc => by simp [pLE] at hbc
  | a :: as, b :: bs, c :: cs, hab, hbc => by
    by_cases h1 : a < b
    · by_cases h2 : b < c
      · have : a < c := lt_trans h1 h2
        simp [pLE, this]
      · by_cases h3 : c < b
        · simp [pLE, h2, h3] at hbc
        · have hbc' : b = c := le_antisymm (not_lt.mp h3) (not_lt.mp h2)
          subst hbc'
          simp [pLE, h1]
    · by_cases h1' : b < a
      · simp [pLE, h1, h1'] at hab
      · have hab' : a = b := le_antisymm (not_lt.mp h1') (not_lt.mp h1)
        subst hab'
        by_cases h2 : a < c
        · simp [pLE, h2]
        · by_cases h3 : c < a
          · simp [pLE, h2, h3] at hbc
          · have hac : a = c := le_antisymm (not_lt.mp h3) (not_lt.mp h2)
            subst hac
            simp [pLE, h2] at hab hbc ⊢
            exact pLE_trans as bs cs hab hbc

/-- The `workspace.members` array of a document, if present. -/
def docMembers (d : Doc) : Option MArray :=
  match d.lookup "workspace" with
  | some (.table rows) =>
    match rows.lookup "members" with
    | some (.arr a) => some a
    | _ => none
  | _ => none

theorem lookup_cons_self {α : Type} (k : String) (v : α)
    (l : List (String × α)) : List.lookup k ((k, v) :: l) = some v := by
  simp [List.lookup]

theorem lookup_cons_ne {α : Type} {k k' : String} (h : k' ≠ k) (v : α)
    (l : List (String × α)) :
    List.lookup k' ((k, v) :: l) = List.lookup k' l := by
  simp [List.lookup, beq_false_of_ne h]

theorem lookup_alInsert_self {α : Type} (k : String) (v : α)
    (l : List (String × α)) : (alInsert k v l).lookup k = some v := by
  induction l with
  | nil => exact lookup_cons_self k v []
  | cons p rest ih =>
    obtain ⟨k', v'⟩ := p
    by_cases h : k' = k
    · subst h
      rw [show alInsert k' v ((k', v') :: rest) = (k', v) :: rest from by
        simp [alInsert]]
      exact lookup_cons_self _ v rest
    · rw [show alInsert k v ((k', v') :: rest) =
          (k', v') :: alInsert k v rest from by simp [alInsert, h]]
      rw [lookup_cons_ne (Ne.symm h), ih]

theorem lookup_alInsert_ne {α : Type} {k k' : String} (h : k' ≠ k) (v : α)
    (l : List (String × α)) :
    (alInsert k v l).lookup k' = l.lookup k' := by
  induction l with
  | nil => exact lookup_cons_ne h v []
  | cons p rest ih =>
    obtain ⟨k0, v0⟩ := p
    by_cases h0 : k0 = k
    · subst h0
      rw [show alInsert k0 v ((k0, v0) :: rest) = (k0, v) :: rest from by
        simp [alInsert]]
      rw [lookup_cons_ne h, lookup_cons_ne h]
    · rw [show alInsert k v ((k0, v0) :: rest) =
          (k0, v0) :: alInsert k v rest from by simp [alInsert, h0]]
      by_cases h1 : k' = k0
      · subst h1
        rw [lookup_cons_self, lookup_cons_self]
      · rw [lookup_cons_ne h1, lookup_cons_ne h1, ih]

theorem lookup_docReplaceTop_self {d : Doc} {k : String} {v : TopItem}
    (hv : d.lookup k = some v) (item : TopItem) :
    (docReplaceTop d k item).lookup k = some item := by
  induction d with
  | nil => simp [List.lookup] at hv
  | cons p rest ih =>
    obtain ⟨k0, v0⟩ := p
    by_cases h0 : k0 = k
    · subst h0
      rw [show docReplaceTop ((k0, v0) :: rest) k0 item =
          (k0, item) :: rest from by simp [docReplaceTop]]
      exact lookup_cons_self _ item rest
    · rw [show docReplaceTop ((k0, v0) :: rest) k item =
          (k0, v0) :: docReplaceTop rest k item from by
        simp [docReplaceTop, h0]]
      rw [lookup_cons_ne (Ne.symm h0)] at hv
      rw [lookup_cons_ne (Ne.symm h0), ih hv]

/-- C9, confirmed: `update_workspace_members` rewrites (or creates) the root
manifest's `workspace.members` array so that it holds exactly one entry per
discovered package — the entries are the packages' manifest paths in sorted
(`Path`-lexicographic) order, each rendered as the package directory
relative to the workspace root on its own line (prefix `\n\t`), with a
trailing newline and trailing comma. -/
theorem C9_theorem (ws : Path) (rootDoc : Doc)
    (packages : List (String × Path))
    (hshape : rootDoc.lookup "workspace" = none ∨
      ∃ rows, rootDoc.lookup "workspace" = some (.table rows))
    (hpre : ∀ p ∈ packages.map Prod.snd, ws <+: p ∧ ws.length < p.length) :
    ∃ doc' ps, update_workspace_members ws rootDoc packages = .ok doc' ∧
      List.Perm ps (packages.map Prod.snd) ∧
      List.Pairwise (fun a b : Path => pLE a b = true) ps ∧
      docMembers doc' = some ⟨ps.map (memberOf ws), "\n", true⟩ ∧
      (∀ m ∈ ps.map (memberOf ws), m.pre = "\n\t") ∧
      (∀ p ∈ ps, ws ++ (parentDir p).drop ws.length = parentDir p) := by
  have hperm : List.Perm ((packages.map Prod.snd).mergeSort pLE)
      (packages.map Prod.snd) := List.mergeSort_perm _ _
  have hsorted := List.sorted_mergeSort pLE_trans pLE_total
    (packages.map Prod.snd)
  have hline : ∀ m ∈ ((packages.map Prod.snd).mergeSort pLE).map
      (memberOf ws), m.pre = "\n\t" := by
    intro m hm
    obtain ⟨p, -, hp⟩ := List.mem_map.mp hm
    rw [← hp]
    rfl
  have hreattach : ∀ p ∈ (packages.map Prod.snd).mergeSort pLE,
      ws ++ (parentDir p).drop ws.length = parentDir p := by
    intro p hp
    have hmem : p ∈ packages.map Prod.snd := hperm.mem_iff.mp hp
    obtain ⟨hpp, hlen⟩ := hpre p hmem
    obtain ⟨t, ht⟩ := hpp
    have htne : t ≠ [] := by
      intro h0
      rw [h0, List.append_nil] at ht
      rw [ht] at hlen
      exact lt_irrefl _ hlen
    have hparent : parentDir p = ws ++ t.dropLast := by
      unfold parentDir
      rw [← ht, List.dropLast_append_of_ne_nil _ htne]
    rw [hparent, List.drop_left]
  rcases hshape with hnone | ⟨rows, hrows⟩
  · refine ⟨rootDoc ++ [("workspace",
      .table [("members", .arr (membersArray ws packages))])],
      (packages.map Prod.snd).mergeSort pLE, ?_, hperm, hsorted, ?_, hline,
      hreattach⟩
    · unfold update_workspace_members
      rw [hnone]
    · unfold docMembers
      rw [List.lookup_append, hnone]
      simp [List.lookup, membersArray]
  · refine ⟨docReplaceTop rootDoc "workspace"
      (.table (rowsSetMembers rows (membersArray ws packages))),
      (packages.map Prod.snd).mergeSort pLE, ?_, hperm, hsorted, ?_, hline,
      hreattach⟩
    · unfold update_workspace_members
      rw [hrows]
    · unfold docMembers
      rw [lookup_docReplaceTop_self hrows]
      simp only []
      rw [show (rowsSetMembers rows (membersArray ws packages)).lookup
          "members" = some (.arr (membersArray ws packages)) from
        lookup_alInsert_self "members" _ rows]
      rfl

/-- Witness for C9: two packages under root `r`, at `r/b` and `r/a/x`; the
members array lists them sorted by manifest path, one per line. -/
theorem C9_witness :
    ∃ doc' ps, update_workspace_members ["r"] []
        [("foo", ["r", "b", "Cargo.toml"]),
          ("bar", ["r", "a", "x", "Cargo.toml"])] = .ok doc' ∧
      List.Perm ps [["r", "b", "Cargo.toml"], ["r", "a", "x", "Cargo.toml"]] ∧
      List.Pairwise (fun a b : Path => pLE a b = true) ps ∧
      docMembers doc' = some ⟨ps.map (memberOf ["r"]), "\n", true⟩ ∧
      (∀ m ∈ ps.map (memberOf ["r"]), m.pre = "\n\t") ∧
      (∀ p ∈ ps, ["r"] ++ (parentDir p).drop 1 = parentDir p) :=
  C9_theorem ["r"] []
    [("foo", ["r", "b", "Cargo.toml"]), ("bar", ["r", "a", "x", "Cargo.toml"])]
    (Or.inl rfl) (by decide)

/-! ## Claim C6 -/

/-- The package names declared across the tree, in walk order. -/
def wsNames (store : Store) : List String :=
  store.filterMap (fun m => docPackageName m.2)

/-- The manifest paths declaring package name `nm`, in walk order. -/
def pathsOfP (nm : String) (ms : List (Path × Doc)) : List Path :=
  ms.filterMap (fun m =>
    if docPackageName m.2 = some nm then some m.1 else none)

/-- The scan invariant: at any point of the manifest scan, the `packages`
map holds the last-seen path per name, and the `duplicates` report holds
exactly the names seen at least twice, with every involved path (displayed)
in encounter order. -/
def InvBP (acc : PkgIndex) (processed : List (Path × Doc)) : Prop :=
  ∀ nm, acc.pkgs.lookup nm = (pathsOfP nm processed).getLast? ∧
    acc.dupes.lookup nm =
      (if 2 ≤ (pathsOfP nm processed).length then
        some ((pathsOfP nm processed).map pdisplay) else none)

theorem pathsOfP_append (nm : String) (a b : List (Path × Doc)) :
    pathsOfP nm (a ++ b) = pathsOfP nm a ++ pathsOfP nm b := by
  unfold pathsOfP
  rw [List.filterMap_append]

theorem pathsOfP_snoc_match {nm : String} {d : Doc}
    (h : docPackageName d = some nm) (processed : List (Path × Doc))
    (p : Path) :
    pathsOfP nm (processed ++ [(p, d)]) = pathsOfP nm processed ++ [p] := by
  rw [pathsOfP_append]
  simp [pathsOfP, h]

theorem pathsOfP_snoc_nomatch {nm : String} {d : Doc}
    (h : ¬ docPackageName d = some nm) (processed : List (Path × Doc))
    (p : Path) :
    pathsOfP nm (processed ++ [(p, d)]) = pathsOfP nm processed := by
  rw [pathsOfP_append]
  simp [pathsOfP, h]

theorem singleton_of_getLast {α : Type} {l : List α} {x : α}
    (h : l.getLast? = some x) (h2 : l.length ≤ 1) : l = [x] := by
  match l with
  | [] => simp at h
  | [a] => simp at h; rw [h]
  | a :: b :: t => simp at h2

theorem buildPackagesGo_cons_none {d : Doc} (h : docPackageName d = none)
    (acc : PkgIndex) (p : Path) (rest : List (Path × Doc)) :
    buildPackagesGo acc ((p, d) :: rest) = buildPackagesGo acc rest := by
  conv_lhs => rw [buildPackagesGo.eq_def]
  simp only []
  rw [h]

theorem buildPackagesGo_cons_first {d : Doc} {nm0 : String}
    (h : docPackageName d = some nm0) {acc : PkgIndex}
    (hlk : acc.pkgs.lookup nm0 = none) (p : Path)
    (rest : List (Path × Doc)) :
    buildPackagesGo acc ((p, d) :: rest) =
      buildPackagesGo ⟨alInsert nm0 p acc.pkgs, acc.dupes⟩ rest := by
  conv_lhs => rw [buildPackagesGo.eq_def]
  simp only []
  rw [h]
  simp only []
  rw [hlk]

theorem buildPackagesGo_cons_dup_first {d : Doc} {nm0 : String}
    (h : docPackageName d = some nm0) {acc : PkgIndex} {existing : Path}
    (hlk : acc.pkgs.lookup nm0 = some existing)
    (hdl : acc.dupes.lookup nm0 = none) (p : Path)
    (rest : List (Path × Doc)) :
    buildPackagesGo acc ((p, d) :: rest) =
      buildPackagesGo ⟨alInsert nm0 p acc.pkgs,
        alInsert nm0 [pdisplay existing, pdisplay p] acc.dupes⟩ rest := by
  conv_lhs => rw [buildPackagesGo.eq_def]
  simp only []
  rw [h]
  simp only []
  rw [hlk]
  simp only []
  rw [hdl]

theorem buildPackagesGo_cons_dup_more {d : Doc} {nm0 : String}
    (h : docPackageName d = some nm0) {acc : PkgIndex} {existing : Path}
    (hlk : acc.pkgs.lookup nm0 = some existing) {v : List String}
    (hdl : acc.dupes.lookup nm0 = some v) (p : Path)
    (rest : List (Path × Doc)) :
    buildPackagesGo acc ((p, d) :: rest) =
      buildPackagesGo ⟨alInsert nm0 p acc.pkgs,
        alInsert nm0 (v ++ [pdisplay p]) acc.dupes⟩ rest := by
  conv_lhs => rw [buildPackagesGo.eq_def]
  simp only []
  rw [h]
  simp only []
  rw [hlk]
  simp only []
  rw [hdl]

theorem buildPackagesGo_inv :
    ∀ (rest : List (Path × Doc)) (acc : PkgIndex)
      (processed : List (Path × Doc)), InvBP acc processed →
      InvBP (buildPackagesGo acc rest) (processed ++ rest)
  | [], acc, processed, hInv => by simpa using hInv
  | (p, d) :: rest, acc, processed, hInv => by
    cases hd : docPackageName d with
    | none =>
      rw [buildPackagesGo_cons_none hd acc p rest]
      have hInv' : InvBP acc (processed ++ [(p, d)]) := by
        intro nm
        have hne0 : ¬ docPackageName d = some nm := by
          rw [hd]
          intro hc
          exact Option.noConfusion hc
        rw [pathsOfP_snoc_nomatch hne0 processed p]
        exact hInv nm
      have hrec := buildPackagesGo_inv rest acc (processed ++ [(p, d)]) hInv'
      simpa [List.append_assoc] using hrec
    | some nm0 =>
      have hd' : docPackageName d = some nm0 := hd
      cases hlk : acc.pkgs.lookup nm0 with
      | none =>
        rw [buildPackagesGo_cons_first hd' hlk p rest]
        have hempty : pathsOfP nm0 processed = [] :=
          List.getLast?_eq_none_iff.mp (by rw [← (hInv nm0).1]; exact hlk)
        have hInv' : InvBP ⟨alInsert nm0 p acc.pkgs, acc.dupes⟩
            (processed ++ [(p, d)]) := by
          intro nm
          by_cases hnm : nm = nm0
          · subst hnm
            constructor
            · rw [show (PkgIndex.mk (alInsert nm p acc.pkgs)
                  acc.dupes).pkgs = alInsert nm p acc.pkgs from rfl,
                lookup_alInsert_self, pathsOfP_snoc_match hd' processed p,
                hempty]
              rfl
            · rw [show (PkgIndex.mk (alInsert nm p acc.pkgs)
                  acc.dupes).dupes = acc.dupes from rfl,
                pathsOfP_snoc_match hd' processed p, hempty, (hInv nm).2,
                hempty]
              simp
          · have hne : ¬ docPackageName d = some nm := by
              rw [hd']
              intro hc
              exact hnm (Option.some.inj hc).symm
            constructor
            · rw [show (PkgIndex.mk (alInsert nm0 p acc.pkgs)
                  acc.dupes).pkgs = alInsert nm0 p acc.pkgs from rfl,
                lookup_alInsert_ne hnm, pathsOfP_snoc_nomatch hne processed p]
              exact (hInv nm).1
            · rw [show (PkgIndex.mk (alInsert nm0 p acc.pkgs)
                  acc.dupes).dupes = acc.dupes from rfl,
                pathsOfP_snoc_nomatch hne processed p]
              exact (hInv nm).2
        have hrec := buildPackagesGo_inv rest _ (processed ++ [(p, d)]) hInv'
        simpa [List.append_assoc] using hrec
      | some existing =>
        have hlast : (pathsOfP nm0 processed).getLast? = some existing := by
          rw [← (hInv nm0).1]; exact hlk
        cases hdl : acc.dupes.lookup nm0 with
        | none =>
          rw [buildPackagesGo_cons_dup_first hd' hlk hdl p rest]
          have hle1 : (pathsOfP nm0 processed).length ≤ 1 := by
            by_contra hgt
            have h2 := (hInv nm0).2
            rw [if_pos (by omega)] at h2
            rw [hdl] at h2
            exact Option.noConfusion h2
          have hsing : pathsOfP nm0 processed = [existing] :=
            singleton_of_getLast hlast hle1
          have hInv' : InvBP ⟨alInsert nm0 p acc.pkgs,
              alInsert nm0 [pdisplay existing, pdisplay p] acc.dupes⟩
              (processed ++ [(p, d)]) := by
            intro nm
            by_cases hnm : nm = nm0
            · subst hnm
              constructor
              · rw [show (PkgIndex.mk (alInsert nm p acc.pkgs)
                    (alInsert nm [pdisplay existing, pdisplay p]
                      acc.dupes)).pkgs = alInsert nm p acc.pkgs from rfl,
                  lookup_alInsert_self, pathsOfP_snoc_match hd' processed p,
                  List.getLast?_concat]
              · rw [show (PkgIndex.mk (alInsert nm p acc.pkgs)
                    (alInsert nm [pdisplay existing, pdisplay p]
                      acc.dupes)).dupes =
                    alInsert nm [pdisplay existing, pdisplay p] acc.dupes
                    from rfl,
                  lookup_alInsert_self, pathsOfP_snoc_match hd' processed p,
                  hsing]
                simp
            · have hne : ¬ docPackageName d = some nm := by
                rw [hd']
                intro hc
                exact hnm (Option.some.inj hc).symm
              constructor
              · rw [show (PkgIndex.mk (alInsert nm0 p acc.pkgs)
                    (alInsert nm0 [pdisplay existing, pdisplay p]
                      acc.dupes)).pkgs = alInsert nm0 p acc.pkgs from rfl,
                  lookup_alInsert_ne hnm,
                  pathsOfP_snoc_nomatch hne processed p]
                exact (hInv nm).1
              · rw [show (PkgIndex.mk (alInsert nm0 p acc.pkgs)
                    (alInsert nm0 [pdisplay existing, pdisplay p]
                      acc.dupes)).dupes =
                    alInsert nm0 [pdisplay existing, pdisplay p] acc.dupes
                    from rfl,
                  lookup_alInsert_ne hnm,
                  pathsOfP_snoc_nomatch hne processed p]
                exact (hInv nm).2
          have hrec := buildPackagesGo_inv rest _ (processed ++ [(p, d)])
            hInv'
          simpa [List.append_assoc] using hrec
        | some v =>
          rw [buildPackagesGo_cons_dup_more hd' hlk hdl p rest]
          have h2 := (hInv nm0).2
          rw [hdl] at h2
          have hge : 2 ≤ (pathsOfP nm0 processed).length := by
            by_contra hlt
            rw [if_neg hlt] at h2
            exact Option.noConfusion h2
          rw [if_pos hge] at h2
          have hv : v = (pathsOfP nm0 processed).map pdisplay :=
            Option.some.inj h2
          have hInv' : InvBP ⟨alInsert nm0 p acc.pkgs,
              alInsert nm0 (v ++ [pdisplay p]) acc.dupes⟩
              (processed ++ [(p, d)]) := by
            intro nm
            by_cases hnm : nm = nm0
            · subst hnm
              constructor
              · rw [show (PkgIndex.mk (alInsert nm p acc.pkgs)
                    (alInsert nm (v ++ [pdisplay p]) acc.dupes)).pkgs =
                    alInsert nm p acc.pkgs from rfl,
                  lookup_alInsert_self, pathsOfP_snoc_match hd' processed p,
                  List.getLast?_concat]
              · rw [show (PkgIndex.mk (alInsert nm p acc.pkgs)
                    (alInsert nm (v ++ [pdisplay p]) acc.dupes)).dupes =
                    alInsert nm (v ++ [pdisplay p]) acc.dupes from rfl,
                  lookup_alInsert_self, pathsOfP_snoc_match hd' processed p,
                  hv]
                rw [if_pos (by rw [List.length_append]; omega)]
                simp
            · have hne : ¬ docPackageName d = some nm := by
                rw [hd']
                intro hc
                exact hnm (Option.some.inj hc).symm
              constructor
              · rw [show (PkgIndex.mk (alInsert nm0 p acc.pkgs)
                    (alInsert nm0 (v ++ [pdisplay p]) acc.dupes)).pkgs =
                    alInsert nm0 p acc.pkgs from rfl,
                  lookup_alInsert_ne hnm,
                  pathsOfP_snoc_nomatch hne processed p]
                exact (hInv nm).1
              · rw [show (PkgIndex.mk (alInsert nm0 p acc.pkgs)
                    (alInsert nm0 (v ++ [pdisplay p]) acc.dupes)).dupes =
                    alInsert nm0 (v ++ [pdisplay p]) acc.dupes from rfl,
                  lookup_alInsert_ne hnm,
                  pathsOfP_snoc_nomatch hne processed p]
                exact (hInv nm).2
          have hrec := buildPackagesGo_inv rest _ (processed ++ [(p, d)])
            hInv'
          simpa [List.append_assoc] using hrec

theorem buildPackages_char (ms : List (Path × Doc)) (nm : String) :
    (buildPackages ms).pkgs.lookup nm = (pathsOfP nm ms).getLast? ∧
    (buildPackages ms).dupes.lookup nm =
      (if 2 ≤ (pathsOfP nm ms).length then
        some ((pathsOfP nm ms).map pdisplay) else none) := by
  have hbase : InvBP ⟨[], []⟩ [] := by
    intro nm
    constructor <;> simp [pathsOfP, List.lookup]
  have h := buildPackagesGo_inv ms ⟨[], []⟩ [] hbase
  rw [List.nil_append] at h
  exact h nm

theorem pathsOfP_length_eq_count (nm : String) (ms : List (Path × Doc)) :
    (pathsOfP nm ms).length = (wsNames ms).count nm := by
  induction ms with
  | nil => rfl
  | cons m rest ih =>
    obtain ⟨p, d⟩ := m
    unfold pathsOfP wsNames at ih ⊢
    rw [List.filterMap_cons, List.filterMap_cons]
    cases hd : docPackageName d with
    | none => simpa using ih
    | some nm0 =>
      by_cases h : nm0 = nm
      · subst h
        simp [List.count_cons, ih]
      · simp [List.count_cons, h, ih]

/-- C6, confirmed: in a workspacify run, if two or more manifests in the
tree declare the same package name, the run aborts with the
duplicate-crates report — before any manifest is written (writes happen only
on the success path, after the check) — and the report names every path
involved in every collision; with unique names throughout (and a root
manifest whose `workspace` item, if present, is a table), the run
proceeds and returns the rewritten tree. -/
theorem C6_theorem (ws : Path) (store : Store)
    (hshape : (storeRead store (ws ++ ["Cargo.toml"])).lookup "workspace" =
        none ∨
      ∃ rows, (storeRead store (ws ++ ["Cargo.toml"])).lookup "workspace" =
        some (.table rows)) :
    (¬ (wsNames store).Nodup →
      workspacify_run ws store =
        .error (.duplicates (buildPackages store).dupes) ∧
      ∀ p doc nm, (p, doc) ∈ store → docPackageName doc = some nm →
        2 ≤ (wsNames store).count nm →
        pdisplay p ∈ (((buildPackages store).dupes.lookup nm).getD [])) ∧
    ((wsNames store).Nodup → ∃ out, workspacify_run ws store = .ok out) := by
  constructor
  · intro hnd
    obtain ⟨x, hx⟩ := List.exists_duplicate_iff_not_nodup.mpr hnd
    have hcx : 2 ≤ (wsNames store).count x :=
      List.duplicate_iff_two_le_count.mp hx
    have hlenx : 2 ≤ (pathsOfP x store).length := by
      rw [pathsOfP_length_eq_count]
      exact hcx
    have hdx := (buildPackages_char store x).2
    rw [if_pos hlenx] at hdx
    have hne : (buildPackages store).dupes ≠ [] := by
      intro h0
      rw [h0] at hdx
      exact Option.noConfusion hdx
    constructor
    · rcases hbp : buildPackages store with ⟨pkgs, dupes⟩
      cases dupes with
      | nil =>
        rw [hbp] at hne
        exact absurd rfl hne
      | cons dd dds =>
        rw [show workspacify_run ws store =
            .error (.duplicates (dd :: dds)) from by
          unfold workspacify_run
          rw [hbp]]
    · intro p doc nm hmem hdoc hcnt
      have hlnm : 2 ≤ (pathsOfP nm store).length := by
        rw [pathsOfP_length_eq_count]
        exact hcnt
      have hd2 := (buildPackages_char store nm).2
      rw [if_pos hlnm] at hd2
      rw [hd2]
      rw [show ((some ((pathsOfP nm store).map pdisplay)).getD
          ([] : List String)) = (pathsOfP nm store).map pdisplay from rfl]
      exact List.mem_map.mpr ⟨p,
        List.mem_filterMap.mpr ⟨(p, doc), hmem, by simp [hdoc]⟩, rfl⟩
  · intro hnd
    have hdnil : (buildPackages store).dupes = [] := by
      rcases hbp2 : (buildPackages store).dupes with - | ⟨⟨nm, v⟩, drest⟩
      · rfl
      · have hl := (buildPackages_char store nm).2
        rw [hbp2, lookup_cons_self] at hl
        by_cases hc : 2 ≤ (pathsOfP nm store).length
        · have hle := List.nodup_iff_count_le_one.mp hnd nm
          rw [← pathsOfP_length_eq_count] at hle
          omega
        · rw [if_neg hc] at hl
          exact Option.noConfusion hl
    rcases hbp : buildPackages store with ⟨pkgs, dupes⟩
    rw [hbp] at hdnil
    have hdnil' : dupes = [] := hdnil
    subst hdnil'
    have hup : ∃ doc', update_workspace_members ws
        (storeRead store (ws ++ ["Cargo.toml"])) pkgs = .ok doc' := by
      rcases hshape with hnone | ⟨rows, hrows⟩
      · exact ⟨storeRead store (ws ++ ["Cargo.toml"]) ++
          [("workspace", .table [("members",
            .arr (membersArray ws pkgs))])], by
          unfold update_workspace_members
          rw [hnone]⟩
      · exact ⟨docReplaceTop (storeRead store (ws ++ ["Cargo.toml"]))
          "workspace" (.table (rowsSetMembers rows (membersArray ws pkgs))),
          by
          unfold update_workspace_members
          rw [hrows]⟩
    obtain ⟨doc', hdoc⟩ := hup
    exact ⟨_, by
      unfold workspacify_run
      rw [hbp]
      simp only []
      rw [hdoc]⟩

/-- A manifest declaring only a package name. -/
def mkPkgDoc (n : String) : Doc := [("package", .table [("name", .strVal n)])]

/-- A tree with two manifests both naming their package `foo`. -/
def storeDup : Store :=
  [(["r", "a", "Cargo.toml"], mkPkgDoc "foo"),
   (["r", "b", "Cargo.toml"], mkPkgDoc "foo")]

/-- A tree with unique package names. -/
def storeUniq : Store :=
  [(["r", "a", "Cargo.toml"], mkPkgDoc "foo"),
   (["r", "b", "Cargo.toml"], mkPkgDoc "bar")]

/-- Witness for C6: the duplicated tree aborts with a report naming
`r/a/Cargo.toml`; the unique tree succeeds. -/
theorem C6_witness :
    workspacify_run ["r"] storeDup =
      .error (.duplicates (buildPackages storeDup).dupes) ∧
    pdisplay ["r", "a", "Cargo.toml"] ∈
      (((buildPackages storeDup).dupes.lookup "foo").getD []) ∧
    (∃ out, workspacify_run ["r"] storeUniq = .ok out) :=
  ⟨(( C6_theorem ["r"] storeDup (Or.inl rfl)).1 (by decide)).1,
   (( C6_theorem ["r"] storeDup (Or.inl rfl)).1 (by decide)).2
     ["r", "a", "Cargo.toml"] (mkPkgDoc "foo") "foo"
     (by decide) (by decide) (by decide),
   ( C6_theorem ["r"] storeUniq (Or.inl rfl)).2 (by decide)⟩

end Diener
